import Mathlib

/-!
Verification of the skeletal-animation runtime against its specification.

The repository ships one source file (`sfml_examples.cpp`), a demo driving the
core library `skeletal_animation_model.hpp`; the core itself (and the assimp
math types it uses) is not part of the source tree here, so the core's data
model and operations are modelled from the specification, as marked on each
definition.  The demo-level functions (`printBoneHierarchy`, `SFMLMaterial`)
are translated directly from `sfml_examples.cpp`.

Real-valued quantities (the C++ code uses floats) are modelled as real numbers.
-/

noncomputable section

namespace SkelAnim

/-- Modelled from the spec: 3-component vector of the math kernel (§2 item 1);
the C++ type `aiVector3D` comes from the assimp dependency, not under src/. -/
@[ext]
structure Vec3 where
  x : ℝ
  y : ℝ
  z : ℝ

/-- Modelled from the spec: quaternion with scalar part `w` and vector part
`(x, y, z)`; the C++ type `aiQuaternion` is from assimp, not under src/. -/
@[ext]
structure Quat where
  w : ℝ
  x : ℝ
  y : ℝ
  z : ℝ

/-- 4x4 real matrix (the spec's affine transform representation). -/
abbrev Mat4 := Matrix (Fin 4) (Fin 4) ℝ

/-- 3x3 real matrix (rotation part of an affine transform). -/
abbrev Mat3 := Matrix (Fin 3) (Fin 3) ℝ

/-- Component access of a `Vec3` by index. -/
def Vec3.nth (v : Vec3) : Fin 3 → ℝ
  | 0 => v.x
  | 1 => v.y
  | 2 => v.z

/-- Modelled from the spec (§4.1): point transform by a 4x4 affine matrix
applies the translation column. -/
def transformPoint (M : Mat4) (p : Vec3) : Vec3 :=
  ⟨M 0 0 * p.x + M 0 1 * p.y + M 0 2 * p.z + M 0 3,
   M 1 0 * p.x + M 1 1 * p.y + M 1 2 * p.z + M 1 3,
   M 2 0 * p.x + M 2 1 * p.y + M 2 2 * p.z + M 2 3⟩

/-- Modelled from the spec (§4.1): direction transform uses only the
upper-left 3x3 block, no translation. -/
def transformDirection (M : Mat4) (n : Vec3) : Vec3 :=
  ⟨M 0 0 * n.x + M 0 1 * n.y + M 0 2 * n.z,
   M 1 0 * n.x + M 1 1 * n.y + M 1 2 * n.z,
   M 2 0 * n.x + M 2 1 * n.y + M 2 2 * n.z⟩

/-- Euclidean length of a `Vec3`. -/
def norm3 (v : Vec3) : ℝ :=
  Real.sqrt (v.x ^ 2 + v.y ^ 2 + v.z ^ 2)

/-- Modelled from the spec (§7): renormalization of a vector; division by a
zero length yields the zero vector (in Lean `x / 0 = 0`), matching the spec's
"substitute zero normal" rule. -/
def normalize (v : Vec3) : Vec3 :=
  ⟨v.x / norm3 v, v.y / norm3 v, v.z / norm3 v⟩

/-- Quaternion dot product. -/
def qdot (p q : Quat) : ℝ :=
  p.w * q.w + p.x * q.x + p.y * q.y + p.z * q.z

/-- Quaternion negation (same rotation, opposite sign). -/
def qneg (q : Quat) : Quat :=
  ⟨-q.w, -q.x, -q.y, -q.z⟩

/-- Componentwise quaternion scaling. -/
def qscale (a : ℝ) (q : Quat) : Quat :=
  ⟨a * q.w, a * q.x, a * q.y, a * q.z⟩

/-- Componentwise quaternion addition. -/
def qadd (p q : Quat) : Quat :=
  ⟨p.w + q.w, p.x + q.x, p.y + q.y, p.z + q.z⟩

/-- A quaternion of unit length. -/
def unitQuat (q : Quat) : Prop :=
  qdot q q = 1

/-- Modelled from the spec (§4.1): quaternion SLERP with shortest-arc
correction — one endpoint is negated when the dot product of the endpoints is
negative; in the degenerate case of (anti)parallel endpoints the spherical
weights are replaced by linear ones. -/
def slerp (q0 q1 : Quat) (t : ℝ) : Quat :=
  let d := qdot q0 q1
  let q1' := if d < 0 then qneg q1 else q1
  if 1 ≤ |d| then
    qadd (qscale (1 - t) q0) (qscale t q1')
  else
    qadd (qscale (Real.sin ((1 - t) * Real.arccos |d|) / Real.sin (Real.arccos |d|)) q0)
         (qscale (Real.sin (t * Real.arccos |d|) / Real.sin (Real.arccos |d|)) q1')

/-- Column scale/rotation/translation composition, modelled from the spec
(§4.1): `compose(scale, rotation, translation → affine)`; the affine matrix
has the scaled rotation in the upper-left 3x3 block (column `j` scaled by the
`j`-th scale component), the translation in the last column, and bottom row
`(0 0 0 1)`.  The C++ counterpart `aiMatrix4x4Compose` is not under src/. -/
def compose (s : Vec3) (R : Mat3) (t : Vec3) : Mat4 :=
  Matrix.of fun i j =>
    if hi : (i : ℕ) < 3 then
      if hj : (j : ℕ) < 3 then R ⟨i, hi⟩ ⟨j, hj⟩ * s.nth ⟨j, hj⟩
      else t.nth ⟨i, hi⟩
    else if (j : ℕ) = 3 then 1 else 0

/-- Length of the `j`-th column of the upper-left 3x3 block of an affine 4x4
matrix. -/
def colNorm (M : Mat4) (j : Fin 3) : ℝ :=
  Real.sqrt (M 0 j.castSucc ^ 2 + M 1 j.castSucc ^ 2 + M 2 j.castSucc ^ 2)

/-- Modelled from the spec (§4.1): `decompose(affine → scale, rotation,
translation)` — the scale components are the column lengths of the upper-left
3x3 block, the rotation is that block with columns divided by the scales, and
the translation is the last column.  The C++ counterpart
`aiMatrix4x4::Decompose` is from assimp, not under src/. -/
def decompose (M : Mat4) : Vec3 × Mat3 × Vec3 :=
  (⟨colNorm M 0, colNorm M 1, colNorm M 2⟩,
   Matrix.of fun i j => M i.castSucc j.castSucc / colNorm M j,
   ⟨M 0 3, M 1 3, M 2 3⟩)

/-- Translation matrix (translation in the last column). -/
def trans4 (t : Vec3) : Mat4 :=
  !![1, 0, 0, t.x; 0, 1, 0, t.y; 0, 0, 1, t.z; 0, 0, 0, 1]

/-- Scale matrix (diagonal). -/
def scale4 (s : Vec3) : Mat4 :=
  !![s.x, 0, 0, 0; 0, s.y, 0, 0; 0, 0, s.z, 0; 0, 0, 0, 1]

/-- Rotation matrix of a unit quaternion (standard quaternion-to-matrix
formula, as in assimp's `aiMatrix3x3(aiQuaternion)`). -/
def rot4 (q : Quat) : Mat4 :=
  !![1 - 2 * (q.y ^ 2 + q.z ^ 2), 2 * (q.x * q.y - q.z * q.w), 2 * (q.x * q.z + q.y * q.w), 0;
     2 * (q.x * q.y + q.z * q.w), 1 - 2 * (q.x ^ 2 + q.z ^ 2), 2 * (q.y * q.z - q.x * q.w), 0;
     2 * (q.x * q.z - q.y * q.w), 2 * (q.y * q.z + q.x * q.w), 1 - 2 * (q.x ^ 2 + q.y ^ 2), 0;
     0, 0, 0, 1]

/-- Componentwise linear interpolation of 3-vectors (LERP). -/
def lerpV (a b : Vec3) (f : ℝ) : Vec3 :=
  ⟨a.x + (b.x - a.x) * f, a.y + (b.y - a.y) * f, a.z + (b.z - a.z) * f⟩

/-- Modelled from the spec (§3): a time-stamped keyframe. -/
structure Key (α : Type) where
  time : ℝ
  value : α

/-- Modelled from the spec (§3): a per-node channel of an animation clip —
three time-sorted keyframe sequences. -/
structure Channel where
  scaleKeys : List (Key Vec3)
  rotKeys : List (Key Quat)
  posKeys : List (Key Vec3)

/-- Modelled from the spec (§3): an animation clip — a duration in ticks, a
ticks-per-second rate, and a mapping node-name → channel. -/
structure Clip where
  duration : ℝ
  ticksPerSecond : ℝ
  channels : List (String × Channel)

/-- Modelled from the spec (§4.4): sample one keyframe sequence at time `t`
(in ticks): the segment whose left key is the largest index with
`keys[i].time ≤ t` is interpolated by `interp`; before the first key the first
value is used (factor 0), at or past the last key the last value (factor 0). -/
def sampleKeys {α : Type} (interp : α → α → ℝ → α) (d : α) : List (Key α) → ℝ → α
  | [], _ => d
  | [k], _ => k.value
  | k0 :: k1 :: rest, t =>
    if t < k0.time then k0.value
    else if t < k1.time then
      interp k0.value k1.value ((t - k0.time) / (k1.time - k0.time))
    else sampleKeys interp d (k1 :: rest) t

/-- Mathematical `fmod` folding into `[0, d)` for `d > 0`, modelled from the
spec (§4.4): "`fmod` of a negative value is folded into `[0, duration)`". -/
def fmodFold (x d : ℝ) : ℝ :=
  x - d * ⌊x / d⌋

/-- Modelled from the spec (§4.4, §4.5): the sample time in ticks —
`fmod(tSeconds × ticksPerSecond, duration)`, clamped to 0 for a clip of zero
duration. -/
def computeTicks (clip : Clip) (tSeconds : ℝ) : ℝ :=
  if clip.duration = 0 then 0 else fmodFold (tSeconds * clip.ticksPerSecond) clip.duration

/-- Modelled from the spec (§4.4): the clip-sampled local transform of a node —
`T · R · S` from the node's channel, or the static local transform when the
clip has no channel for the node. -/
def nodeLocal (clip : Clip) (tTicks : ℝ) (nm : String) (staticL : Mat4) : Mat4 :=
  match clip.channels.lookup nm with
  | none => staticL
  | some ch =>
      trans4 (sampleKeys lerpV ⟨0, 0, 0⟩ ch.posKeys tTicks) *
        rot4 (sampleKeys slerp ⟨1, 0, 0, 0⟩ ch.rotKeys tTicks) *
        scale4 (sampleKeys lerpV ⟨1, 1, 1⟩ ch.scaleKeys tTicks)

/-- Modelled from the spec (§3): a node of the scene's node tree — a name, a
local transform, and ordered children. -/
inductive NodeTree where
  | node (name : String) (localT : Mat4) (children : List NodeTree)

/-- Name of a node. -/
def NodeTree.name : NodeTree → String
  | .node nm _ _ => nm

/-- Static local transform of a node. -/
def NodeTree.localT : NodeTree → Mat4
  | .node _ lt _ => lt

/-- Children of a node. -/
def NodeTree.children : NodeTree → List NodeTree
  | .node _ _ cs => cs

mutual

/-- First node with the given name (pre-order), returning its local
transform. -/
def findLocal (target : String) : NodeTree → Option Mat4
  | .node nm lt cs => if nm = target then some lt else findLocalList target cs

/-- `findLocal` over a list of sibling subtrees. -/
def findLocalList (target : String) : List NodeTree → Option Mat4
  | [] => none
  | c :: cs =>
    match findLocal target c with
    | some m => some m
    | none => findLocalList target cs

end

/-- Modelled from the spec (§4.3): a bone — the name of its node, the offset
matrix, the derived parent bone id (when one exists), and the per-frame local
transformation that `createFrame` rewrites and callers may override. -/
structure Bone where
  nodeName : String
  offset : Mat4
  hasParentBoneId : Bool
  parentBoneId : ℕ
  transformation : Mat4

/-- Modelled from the spec (§4.3): the read-only index name → boneId (the
first bone carrying the name). -/
def boneIdOf (bones : List Bone) (nm : String) : Option ℕ :=
  bones.findIdx? fun b => b.nodeName = nm

/-- Bone id and offset matrix of the bone attached to a node name, if any. -/
def boneOfModel (bones : List Bone) (nm : String) : Option (ℕ × Mat4) :=
  (boneIdOf bones nm).bind fun b => (bones.get? b).map fun bn => (b, bn.offset)

/-- Modelled from the spec (§4.5, §4.8): the local transform used for a node
during the pose traversal — for a bone's node the bone's (possibly
caller-overridden) `transformation`, otherwise the clip-sampled local. -/
def localOfModel (bones : List Bone) (clip : Clip) (tTicks : ℝ)
    (nm : String) (staticL : Mat4) : Mat4 :=
  match boneIdOf bones nm with
  | some b => ((bones.get? b).map Bone.transformation).getD staticL
  | none => nodeLocal clip tTicks nm staticL

/-- A pose: the bone-id / skinning-matrix pairs recorded by the traversal, in
pre-order. -/
abbrev Pose := List (ℕ × Mat4)

mutual

/-- Modelled from the spec (§4.5): single pre-order traversal of the node
tree — `global(node) = global(parent) · local(node)` with the accumulator `G`
as the parent's global; at a bone's node the pair
`(boneId, global(node) · offset)` is recorded. -/
def evalNode (L : String → Mat4 → Mat4) (B : String → Option (ℕ × Mat4))
    (G : Mat4) : NodeTree → Pose
  | .node nm lt cs =>
    (match B nm with
     | some bo => [(bo.1, (G * L nm lt) * bo.2)]
     | none => []) ++ evalNodeList L B (G * L nm lt) cs

/-- `evalNode` over a list of sibling subtrees (left to right). -/
def evalNodeList (L : String → Mat4 → Mat4) (B : String → Option (ℕ × Mat4))
    (G : Mat4) : List NodeTree → Pose
  | [] => []
  | c :: cs => evalNode L B G c ++ evalNodeList L B G cs

end

/-- Node reached from `t` by following a path of child indices. -/
def nodeAt : NodeTree → List ℕ → Option NodeTree
  | t, [] => some t
  | t, i :: p =>
    match t.children[i]? with
    | some c => nodeAt c p
    | none => none

/-- Global transform (product of the locals chosen by `L` along the path from
the root) of the node reached by a path: `global(root) = local(root)` and
descending into a child multiplies its local on the right. -/
def globalAt (L : String → Mat4 → Mat4) : NodeTree → List ℕ → Option Mat4
  | t, [] => some (L t.name t.localT)
  | t, i :: p =>
    match t.children[i]? with
    | some c => (globalAt L c p).map fun M => L t.name t.localT * M
    | none => none

mutual

/-- All node paths of a tree in pre-order: the root first, then the paths
into each child in order. -/
def preorderPaths : NodeTree → List (List ℕ)
  | .node _ _ cs => [] :: preorderPathsList cs 0

/-- Paths into a list of sibling subtrees, the first sibling having child
index `i`. -/
def preorderPathsList : List NodeTree → ℕ → List (List ℕ)
  | [], _ => []
  | c :: cs, i => (preorderPaths c).map (i :: ·) ++ preorderPathsList cs (i + 1)

end

/-- The pose entry contributed by the node at a path: when the node carries a
bone, the pair `(boneId, (G · global(node)) · offset)` with `G` the transform
applied above the root. -/
def poseSpec (L : String → Mat4 → Mat4) (B : String → Option (ℕ × Mat4))
    (t : NodeTree) (G : Mat4) (p : List ℕ) : Option (ℕ × Mat4) :=
  match nodeAt t p, globalAt L t p with
  | some nd, some g => (B nd.name).map fun bo => (bo.1, (G * g) * bo.2)
  | _, _ => none

mutual

/-- Bone ids recorded anywhere in a subtree (pre-order). -/
def collectBoneIds (B : String → Option (ℕ × Mat4)) : NodeTree → List ℕ
  | .node nm _ cs =>
    (match B nm with
     | some bo => [bo.1]
     | none => []) ++ collectBoneIdsList B cs

/-- `collectBoneIds` over a list of sibling subtrees. -/
def collectBoneIdsList (B : String → Option (ℕ × Mat4)) : List NodeTree → List ℕ
  | [] => []
  | c :: cs => collectBoneIds B c ++ collectBoneIdsList B cs

end

mutual

/-- Bone ids whose skinning matrices can depend on the local transform of a
node satisfying `pred`: all bone ids inside the subtrees rooted at such
nodes (the overridden bone and its descendant bones). -/
def affectedIds (pred : String → Bool) (B : String → Option (ℕ × Mat4)) :
    NodeTree → List ℕ
  | .node nm lt cs =>
    if pred nm then collectBoneIds B (.node nm lt cs)
    else affectedIdsList pred B cs

/-- `affectedIds` over a list of sibling subtrees. -/
def affectedIdsList (pred : String → Bool) (B : String → Option (ℕ × Mat4)) :
    List NodeTree → List ℕ
  | [] => []
  | c :: cs => affectedIds pred B c ++ affectedIdsList pred B cs

end

/-- Skinning matrix of bone `b` in a pose (last write wins, identity for a
bone never recorded). -/
def poseLookup (pose : Pose) (b : ℕ) : Mat4 :=
  ((pose.reverse.find? fun e => e.1 == b).map Prod.snd).getD 1

/-- Modelled from the spec (§3): a bind-pose vertex — position, normal, and
the per-vertex list of (boneId, weight) pairs. -/
structure Vertex where
  pos : Vec3
  normal : Vec3
  weights : List (ℕ × ℝ)

/-- Modelled from the spec (§3): a mesh's bind-pose vertex array (the UVs,
indices and material id play no role in the skinning pass). -/
structure Mesh where
  vertices : List Vertex

/-- Modelled from the spec (§3): a posed mesh frame — posed positions and
normals, same length and order as the bind arrays. -/
structure MeshFrame where
  vertices : List Vec3
  normals : List Vec3

/-- Modelled from the spec (§4.6): the blended vertex matrix
`M = Σ_k weight_k · boneMatrix[boneId_k]`, the identity for a vertex with no
bone weights. -/
def skinMatrix (B : ℕ → Mat4) : List (ℕ × ℝ) → Mat4
  | [] => 1
  | bw :: ws => ((bw :: ws).map fun e => e.2 • B e.1).sum

/-- Modelled from the spec (§4.6): the skinning pass — posed position
`transform-point(M, p)` and posed normal
`normalize(transform-direction(M, n))` for every vertex. -/
def skinMesh (B : ℕ → Mat4) (mesh : Mesh) : MeshFrame :=
  ⟨mesh.vertices.map fun v => transformPoint (skinMatrix B v.weights) v.pos,
   mesh.vertices.map fun v => normalize (transformDirection (skinMatrix B v.weights) v.normal)⟩

/-- Modelled from the spec (§7): error kinds surfaced to the caller. -/
inductive SAError where
  | NoSuchClip
  | NoSuchBone
  | NoSuchMesh

/-- Modelled from the spec (§3, §6): the skeletal-animation model — scene
node tree, bone table, meshes, clips, and the current frame parameters set by
`createFrame` (the clip and the sample time in ticks). -/
structure SAModel where
  tree : NodeTree
  bones : List Bone
  meshes : List Mesh
  clips : List Clip
  cur : Option (Clip × ℝ)

/-- Modelled from the spec (§4.5, §4.8): the state after a successful
`createFrame` — every bone's `transformation` is set to the clip-sampled local
transform of its node, and the current clip and tick time are recorded. -/
def applyFrame (m : SAModel) (clip : Clip) (tTicks : ℝ) : SAModel :=
  { m with
    bones := m.bones.map fun b =>
      { b with transformation :=
          nodeLocal clip tTicks b.nodeName ((findLocal b.nodeName m.tree).getD 1) },
    cur := some (clip, tTicks) }

/-- Modelled from the spec (§4.8, §7): `createFrame(clipId, tSeconds)` — an
invalid clip id fails with `NoSuchClip` and performs no evaluation; otherwise
the sampled frame state is produced. -/
def createFrame (m : SAModel) (clipId : ℕ) (tSeconds : ℝ) : Except SAError SAModel :=
  match m.clips.get? clipId with
  | none => .error .NoSuchClip
  | some clip => .ok (applyFrame m clip (computeTicks clip tSeconds))

/-- The pose obtained by (re-)running the traversal on the current bone table
(so bone overrides written after `createFrame` are picked up, per §4.8). -/
def currentPose (m : SAModel) : Pose :=
  match m.cur with
  | some (clip, tTicks) =>
      evalNode (localOfModel m.bones clip tTicks) (boneOfModel m.bones) 1 m.tree
  | none =>
      evalNode (localOfModel m.bones ⟨0, 0, []⟩ 0) (boneOfModel m.bones) 1 m.tree

/-- Modelled from the spec (§4.8): `getMeshFrame` — run the skinning pass for
one mesh against the current pose. -/
def getMeshFrame (m : SAModel) (mesh : Mesh) : MeshFrame :=
  skinMesh (poseLookup (currentPose m)) mesh

/-- Modelled from the spec (§4.7): drawing a mesh frame; the observable
behavior is the emitted frame. -/
def drawMeshFrame (fr : MeshFrame) : List MeshFrame :=
  [fr]

/-- Modelled from the spec (§4.8): the convenience entry point
`drawFrame(clipId, tSeconds)`; its observable behavior is the state after
`createFrame` and the sequence of drawn mesh frames. -/
def drawFrame (m : SAModel) (clipId : ℕ) (tSeconds : ℝ) :
    Except SAError (SAModel × List MeshFrame) :=
  match createFrame m clipId tSeconds with
  | .error e => .error e
  | .ok m' => .ok (m', m'.meshes.map fun mesh => getMeshFrame m' mesh)

/-- The composition the spec (and the comment in `AstroBoy::drawFrame`)
equates `drawFrame` with: `createFrame`, then for each mesh in order
`getMeshFrame` followed by `drawMeshFrame`. -/
def drawFrameComposed (m : SAModel) (clipId : ℕ) (tSeconds : ℝ) :
    Except SAError (SAModel × List MeshFrame) :=
  match createFrame m clipId tSeconds with
  | .error e => .error e
  | .ok m' =>
      .ok (m', m'.meshes.foldl (fun acc mesh => acc ++ drawMeshFrame (getMeshFrame m' mesh)) [])

/-- Texture-semantic slots of the asset library (`aiTextureType`); the demo
only ever reads the diffuse slot. -/
inductive AiTextureType where
  | diffuse
  | specular
  | height

/-- An asset material as seen by the demo: per-slot lists of external texture
file paths (`GetTextureCount`/`GetTexture`). -/
structure AiMaterial where
  textures : AiTextureType → List String

/-- An SFML texture as produced by the constructor: loaded from the model
directory and vertically flipped. -/
structure SFMLTexture where
  sourcePath : String
  flippedVertically : Bool

/-- The demo's model directory (`const std::string modelPath="models/"`). -/
def modelPath : String := "models/"

/-- Loading one texture in `SFMLMaterial`'s constructor: read the file from
the model directory and flip it vertically. -/
def loadTexture (path : String) : SFMLTexture :=
  ⟨modelPath ++ path, true⟩

/-- `SFMLMaterial` from `sfml_examples.cpp`: holds the diffuse textures loaded
at construction. -/
structure SFMLMaterial where
  diffuseTextures : List SFMLTexture

/-- The `SFMLMaterial(const aiMaterial*)` constructor: loads one texture per
diffuse slot of the asset material, in order. -/
def SFMLMaterial.ofAiMaterial (material : AiMaterial) : SFMLMaterial :=
  ⟨(material.textures .diffuse).map loadTexture⟩

/-- `SFMLMaterial::bindTexture(textureType, textureId)`: binds
`diffuseTextures[textureId]` regardless of `textureType`.  The C++ indexing
has no bounds check; the model returns `none` exactly when the access would be
out of bounds. -/
def SFMLMaterial.bindTexture (mat : SFMLMaterial) (textureType : AiTextureType)
    (textureId : ℕ) : Option SFMLTexture :=
  mat.diffuseTextures[textureId]?

/-- `SFMLMaterial::texture()`: whether any diffuse texture was loaded. -/
def SFMLMaterial.texture (mat : SFMLMaterial) : Bool :=
  mat.diffuseTextures.length > 0

/-- Concrete one-vertex mesh used as a witness input. -/
def meshW : Mesh :=
  ⟨[⟨⟨1, 2, 3⟩, ⟨0, 0, 1⟩, [(0, 1)]⟩]⟩

/-- Concrete model used as a witness input. -/
def modelW : SAModel :=
  ⟨.node "root" 1 [], [], [meshW], [⟨0, 1, []⟩], none⟩

/-- Concrete two-bone tree (torso with head and arm bones) used as a witness
input for the override-locality claim. -/
def tree5W : NodeTree :=
  .node "torso" 1 [.node "head" 1 [], .node "arm" 1 []]

/-- Concrete bone table for `tree5W`: bone 0 is "head", bone 1 is "arm". -/
def bones5W : List Bone :=
  [⟨"head", 1, false, 0, 1⟩, ⟨"arm", 1, false, 0, 1⟩]

/-- Concrete mesh whose single vertex is influenced only by bone 1 (the
arm). -/
def mesh5W : Mesh :=
  ⟨[⟨⟨1, 0, 0⟩, ⟨0, 0, 1⟩, [(1, 1)]⟩]⟩

/-- Concrete model used as a witness input for override locality. -/
def model5W : SAModel :=
  ⟨tree5W, bones5W, [mesh5W], [], none⟩

/-- Concrete non-identity override transform. -/
def newTW : Mat4 :=
  trans4 ⟨0, 1, 0⟩

/-- Bone data consumed by `printBoneHierarchy` (`Bone::hasParentBoneId`
and `Bone::parentBoneId` in `sfml_examples.cpp`). -/
structure BoneH where
  hasParentBoneId : Bool
  parentBoneId : ℕ

/-- Model data consumed by `printBoneHierarchy`: the bone list and the
`boneName2boneId` map. -/
structure HModel where
  bones : List BoneH
  boneName2boneId : List (String × ℕ)

/-- The parent link of bone `c` as an option (defined exactly when `c` is a
valid bone id with `hasParentBoneId`). -/
def parentOf (bones : List BoneH) (c : ℕ) : Option ℕ :=
  match bones[c]? with
  | some bn => if bn.hasParentBoneId then some bn.parentBoneId else none
  | none => none

/-- First loop of `printBoneHierarchy`: build `boneChildrenIds` by walking
`cb = 0 .. bones.size()-1` and pushing `cb` onto its parent's child list. -/
def boneChildrenIds (bones : List BoneH) : List (List ℕ) :=
  (List.range bones.length).foldl
    (fun acc cb =>
      match parentOf bones cb with
      | some p => acc.set p (acc.getD p [] ++ [cb])
      | none => acc)
    (List.replicate bones.length [])

/-- Second loop of `printBoneHierarchy`: build `boneId2BoneName` from the
`boneName2boneId` map. -/
def boneId2BoneName (m : HModel) : List String :=
  m.boneName2boneId.foldl (fun acc pr => acc.set pr.2 pr.1)
    (List.replicate m.bones.length "")

/-- The indentation printed for a level: two spaces per depth level. -/
def indentStr (level : ℕ) : String :=
  String.join (List.replicate level "  ")

/-- One output line of `printBoneHierarchy`: indentation, bone id, a space,
and the bone name. -/
def boneLine (names : List String) (boneId level : ℕ) : String :=
  indentStr level ++ toString boneId ++ " " ++ names.getD boneId ""

/-- The `recursiveFunction` lambda of `printBoneHierarchy`: print the bone's
line, then recurse into its children with `level + 1`.  The C++ recursion is
unbounded; the model bounds the depth by a fuel argument (instantiated with
the number of bones, which the claim's forest hypothesis makes sufficient). -/
def printBoneRec (children : List (List ℕ)) (names : List String) :
    ℕ → ℕ → ℕ → List String
  | 0, _, _ => []
  | fuel + 1, boneId, level =>
    boneLine names boneId level ::
      (children.getD boneId []).bind fun c =>
        printBoneRec children names fuel c (level + 1)

/-- The root loop of `printBoneHierarchy`: bones without a parent, in
increasing id order. -/
def rootBoneIds (bones : List BoneH) : List ℕ :=
  (List.range bones.length).filter fun cb =>
    !(bones.getD cb ⟨false, 0⟩).hasParentBoneId

/-- `printBoneHierarchy` from `sfml_examples.cpp`, its printed output
modelled as the list of lines. -/
def printBoneHierarchy (m : HModel) : List String :=
  (rootBoneIds m.bones).bind fun cb =>
    printBoneRec (boneChildrenIds m.bones) (boneId2BoneName m) m.bones.length cb 0

/-- The traversal of `printBoneRec` with each visit recorded as a
(boneId, level) pair instead of a printed line. -/
def visitRec (children : List (List ℕ)) : ℕ → ℕ → ℕ → List (ℕ × ℕ)
  | 0, _, _ => []
  | fuel + 1, boneId, level =>
    (boneId, level) ::
      (children.getD boneId []).bind fun c => visitRec children fuel c (level + 1)

/-- The (boneId, level) visit order of `printBoneHierarchy`. -/
def visitPairs (m : HModel) : List (ℕ × ℕ) :=
  (rootBoneIds m.bones).bind fun cb =>
    visitRec (boneChildrenIds m.bones) m.bones.length cb 0

/-- `a` is an ancestor of `c` (or `a = c`) along the parent links. -/
def AncOf (bones : List BoneH) : ℕ → ℕ → Prop :=
  Relation.ReflTransGen fun a b => parentOf bones b = some a

/-- The depth of a bone: 0 at a root, one more than the parent's depth
otherwise. -/
inductive DepthIs (bones : List BoneH) : ℕ → ℕ → Prop where
  | root (c : ℕ) : parentOf bones c = none → DepthIs bones c 0
  | step (c p k : ℕ) : parentOf bones c = some p → DepthIs bones p k →
      DepthIs bones c (k + 1)

/-- Concrete five-bone forest (pelvis → spine → head, pelvis → legL,
pelvis → legR) used as a witness input. -/
def bones9W : List BoneH :=
  [⟨false, 0⟩, ⟨true, 0⟩, ⟨true, 1⟩, ⟨true, 0⟩, ⟨true, 0⟩]

/-- Concrete hierarchy model used as a witness input. -/
def m9W : HModel :=
  ⟨bones9W, [("pelvis", 0), ("spine", 1), ("head", 2), ("legL", 3), ("legR", 4)]⟩

/-! ### Lemmas -/

lemma sin_arccos_abs_pos {d : ℝ} (h : ¬ 1 ≤ |d|) :
    0 < Real.sin (Real.arccos |d|) := by
  have h01 : 0 ≤ |d| := abs_nonneg d
  have hlt : |d| < 1 := lt_of_not_le h
  have hpos : 0 < Real.arccos |d| := Real.arccos_pos.mpr hlt
  have hltpi : Real.arccos |d| < Real.pi := by
    have := Real.arccos_le_pi_div_two.mpr h01
    have hpi : Real.pi / 2 < Real.pi := by
      have := Real.pi_pos
      linarith
    linarith
  exact Real.sin_pos_of_pos_of_lt_pi hpos hltpi

lemma qadd_qscale_one_zero (p q : Quat) : qadd (qscale 1 p) (qscale 0 q) = p := by
  ext <;> simp [qadd, qscale]

lemma qadd_qscale_zero_one (p q : Quat) : qadd (qscale 0 p) (qscale 1 q) = q := by
  ext <;> simp [qadd, qscale]

lemma slerp_zero (q0 q1 : Quat) : slerp q0 q1 0 = q0 := by
  unfold slerp
  by_cases h : 1 ≤ |qdot q0 q1|
  · simp only [h, if_true]
    simpa using qadd_qscale_one_zero q0 _
  · simp only [h, if_false]
    have hs := sin_arccos_abs_pos h
    have h1 : Real.sin ((1 - (0 : ℝ)) * Real.arccos |qdot q0 q1|) /
        Real.sin (Real.arccos |qdot q0 q1|) = 1 := by
      rw [show ((1 : ℝ) - 0) * Real.arccos |qdot q0 q1| = Real.arccos |qdot q0 q1| by ring]
      exact div_self (ne_of_gt hs)
    have h0 : Real.sin ((0 : ℝ) * Real.arccos |qdot q0 q1|) /
        Real.sin (Real.arccos |qdot q0 q1|) = 0 := by
      rw [zero_mul, Real.sin_zero, zero_div]
    rw [h1, h0]
    exact qadd_qscale_one_zero q0 _

lemma slerp_one (q0 q1 : Quat) :
    slerp q0 q1 1 = (if qdot q0 q1 < 0 then qneg q1 else q1) := by
  unfold slerp
  by_cases h : 1 ≤ |qdot q0 q1|
  · simp only [h, if_true]
    simpa using qadd_qscale_zero_one q0 _
  · simp only [h, if_false]
    have hs := sin_arccos_abs_pos h
    have h1 : Real.sin ((1 : ℝ) * Real.arccos |qdot q0 q1|) /
        Real.sin (Real.arccos |qdot q0 q1|) = 1 := by
      rw [one_mul]
      exact div_self (ne_of_gt hs)
    have h0 : Real.sin ((1 - (1 : ℝ)) * Real.arccos |qdot q0 q1|) /
        Real.sin (Real.arccos |qdot q0 q1|) = 0 := by
      rw [show ((1 : ℝ) - 1) * Real.arccos |qdot q0 q1| = 0 by ring, Real.sin_zero, zero_div]
    rw [h1, h0]
    exact qadd_qscale_zero_one q0 _

lemma qdot_qneg (p q : Quat) : qdot p (qneg q) = -(qdot p q) := by
  simp [qdot, qneg]; ring

lemma nth_mk_const (c : ℝ) (k : Fin 3) : Vec3.nth ⟨c, c, c⟩ k = c := by
  fin_cases k <;> rfl

lemma nth_colNorms (M : Mat4) (k : Fin 3) :
    Vec3.nth ⟨colNorm M 0, colNorm M 1, colNorm M 2⟩ k = colNorm M k := by
  fin_cases k <;> rfl

lemma compose_apply_ul (s : Vec3) (R : Mat3) (t : Vec3) (i j : Fin 3) :
    compose s R t i.castSucc j.castSucc = R i j * s.nth j := by
  have hi : ((i.castSucc : Fin 4) : ℕ) < 3 := by simp [Fin.coe_castSucc, i.isLt]
  have hj : ((j.castSucc : Fin 4) : ℕ) < 3 := by simp [Fin.coe_castSucc, j.isLt]
  have e1 : (⟨((i.castSucc : Fin 4) : ℕ), hi⟩ : Fin 3) = i := Fin.ext (by simp)
  have e2 : (⟨((j.castSucc : Fin 4) : ℕ), hj⟩ : Fin 3) = j := Fin.ext (by simp)
  simp only [compose, Matrix.of_apply, dif_pos hi, dif_pos hj, e1, e2]

lemma compose_colNorm (c : ℝ) (hc : 0 < c) (R : Mat3) (hR : R.transpose * R = 1)
    (t : Vec3) (j : Fin 3) : colNorm (compose ⟨c, c, c⟩ R t) j = c := by
  have hunit : R 0 j * R 0 j + R 1 j * R 1 j + R 2 j * R 2 j = 1 := by
    have h := congrFun (congrFun hR j) j
    simpa [Matrix.mul_apply, Fin.sum_univ_three, Matrix.transpose_apply,
      Matrix.one_apply] using h
  have he : ∀ i : Fin 3, compose ⟨c, c, c⟩ R t i.castSucc j.castSucc = R i j * c := by
    intro i
    rw [compose_apply_ul, nth_mk_const]
  unfold colNorm
  have h0 : compose ⟨c, c, c⟩ R t 0 j.castSucc = R 0 j * c := he 0
  have h1 : compose ⟨c, c, c⟩ R t 1 j.castSucc = R 1 j * c := he 1
  have h2 : compose ⟨c, c, c⟩ R t 2 j.castSucc = R 2 j * c := he 2
  rw [h0, h1, h2]
  have hsum : (R 0 j * c) ^ 2 + (R 1 j * c) ^ 2 + (R 2 j * c) ^ 2 = c ^ 2 := by
    linear_combination c ^ 2 * hunit
  rw [hsum]
  exact Real.sqrt_sq hc.le

lemma list_map_sum_fin {α M : Type} [AddCommMonoid M] (f : α → M) (l : List α) :
    (l.map f).sum = ∑ k : Fin l.length, f (l.get k) := by
  induction l with
  | nil => simp
  | cons a l ih =>
    simp only [List.map_cons, List.sum_cons, List.length_cons, Fin.sum_univ_succ,
      List.get_cons_succ, List.get_cons_zero, ih]
    exact congrArg (f a + ·) (Finset.sum_congr rfl fun i _ => rfl)

lemma foldl_append_map {α β : Type} (f : α → β) (l : List α) :
    ∀ init : List β, l.foldl (fun acc x => acc ++ [f x]) init = init ++ l.map f := by
  induction l with
  | nil => intro init; simp
  | cons a l ih => intro init; simp [ih]

lemma fmodFold_mem (x d : ℝ) (hd : 0 < d) : 0 ≤ fmodFold x d ∧ fmodFold x d < d := by
  have hne : d ≠ 0 := ne_of_gt hd
  have heq : fmodFold x d = d * Int.fract (x / d) := by
    unfold fmodFold Int.fract
    rw [mul_sub, mul_div_cancel₀ x hne]
  refine ⟨?_, ?_⟩
  · rw [heq]
    exact mul_nonneg hd.le (Int.fract_nonneg _)
  · rw [heq]
    calc d * Int.fract (x / d) < d * 1 := (mul_lt_mul_left hd).mpr (Int.fract_lt_one _)
      _ = d := mul_one d

/-- Strictly increasing key times, as the spec requires of each keyframe
sequence. -/
def keysSorted {α : Type} (keys : List (Key α)) : Prop :=
  List.Pairwise (fun a b => a.time < b.time) keys

lemma keys_head_le {α : Type} {l : List (Key α)} (hp : keysSorted l) {j : ℕ}
    {a b : Key α} (ha : l[0]? = some a) (hj : l[j]? = some b) : a.time ≤ b.time := by
  cases l with
  | nil => simp at ha
  | cons x xs =>
    have hax : a = x := by simpa using ha.symm
    subst hax
    cases j with
    | zero => simp_all
    | succ j' =>
      have hb : b ∈ xs := by
        have : xs[j']? = some b := by simpa using hj
        exact List.getElem?_mem this
      rcases List.pairwise_cons.mp hp with ⟨hhead, _⟩
      exact (hhead b hb).le

lemma sampleKeys_first {α : Type} (interp : α → α → ℝ → α) (d : α)
    (k0 : Key α) (rest : List (Key α)) (t : ℝ) (ht : t < k0.time) :
    sampleKeys interp d (k0 :: rest) t = k0.value := by
  cases rest with
  | nil => rfl
  | cons k1 rest' =>
    unfold sampleKeys
    rw [if_pos ht]

lemma sampleKeys_last {α : Type} (interp : α → α → ℝ → α) (d : α) :
    ∀ (keys : List (Key α)) (t : ℝ), keysSorted keys →
      ∀ kl, keys.getLast? = some kl → kl.time ≤ t →
        sampleKeys interp d keys t = kl.value := by
  intro keys
  induction keys with
  | nil => intro t _ kl hkl; simp at hkl
  | cons k0 rest ih =>
    intro t hs kl hkl hle
    cases rest with
    | nil =>
      simp only [List.getLast?_singleton, Option.some.injEq] at hkl
      rw [← hkl]
      rfl
    | cons k1 rest' =>
      have hkl' : (k1 :: rest').getLast? = some kl := by
        rwa [List.getLast?_cons_cons] at hkl
      have hmem : kl ∈ k1 :: rest' := by
        rcases List.mem_getLast?_eq_getLast (by rw [hkl']; rfl) with ⟨h, hx⟩
        rw [hx]
        exact List.getLast_mem h
      rcases List.pairwise_cons.mp hs with ⟨hhead, htail⟩
      have h0 : k0.time < kl.time := hhead kl hmem
      have h1 : k1.time ≤ kl.time := by
        rcases List.mem_cons.mp hmem with h | h
        · rw [h]
        · rcases List.pairwise_cons.mp htail with ⟨hh2, _⟩
          exact (hh2 kl h).le
      unfold sampleKeys
      rw [if_neg (by push_neg; linarith), if_neg (by push_neg; linarith)]
      exact ih t htail kl hkl' hle

lemma sampleKeys_segment {α : Type} (interp : α → α → ℝ → α) (d : α) :
    ∀ (keys : List (Key α)) (i : ℕ) (t : ℝ), keysSorted keys →
      ∀ ki ki1, keys[i]? = some ki → keys[i + 1]? = some ki1 →
        ki.time ≤ t → t < ki1.time →
        sampleKeys interp d keys t =
          interp ki.value ki1.value ((t - ki.time) / (ki1.time - ki.time)) := by
  intro keys
  induction keys with
  | nil => intro i t _ ki ki1 hki; simp at hki
  | cons k0 rest ih =>
    intro i t hs ki ki1 hki hki1 hle hlt
    cases rest with
    | nil =>
      cases i with
      | zero => simp at hki1
      | succ j => simp at hki1
    | cons k1 rest' =>
      rcases List.pairwise_cons.mp hs with ⟨hhead, htail⟩
      cases i with
      | zero =>
        have e0 : ki = k0 := by simpa using hki.symm
        have e1 : ki1 = k1 := by simpa using hki1.symm
        subst e0; subst e1
        unfold sampleKeys
        rw [if_neg (by push_neg; exact hle), if_pos hlt]
      | succ j =>
        have hki' : (k1 :: rest')[j]? = some ki := by simpa using hki
        have hki1' : (k1 :: rest')[j + 1]? = some ki1 := by simpa using hki1
        have hmem : ki ∈ k1 :: rest' := List.getElem?_mem hki'
        have h0 : k0.time < ki.time := hhead ki hmem
        have h1 : k1.time ≤ ki.time := keys_head_le htail (by simp) hki'
        unfold sampleKeys
        rw [if_neg (by push_neg; linarith), if_neg (by push_neg; linarith)]
        exact ih j t htail ki ki1 hki' hki1' hle hlt

theorem NodeTree.strongInd {P : NodeTree → Prop}
    (h : ∀ nm lt cs, (∀ c ∈ cs, P c) → P (.node nm lt cs)) : ∀ t, P t
  | .node nm lt cs => h nm lt cs fun c hc => NodeTree.strongInd h c
decreasing_by
  have := List.sizeOf_lt_of_mem hc
  simp only [NodeTree.node.sizeOf_spec]
  omega

lemma poseSpec_cons (L : String → Mat4 → Mat4) (B : String → Option (ℕ × Mat4))
    (nm : String) (lt : Mat4) (cs : List NodeTree) (i : ℕ) (c : NodeTree)
    (hc : cs[i]? = some c) (G : Mat4) (p : List ℕ) :
    poseSpec L B (NodeTree.node nm lt cs) G (i :: p) =
      poseSpec L B c (G * L nm lt) p := by
  have hn : nodeAt (NodeTree.node nm lt cs) (i :: p) = nodeAt c p := by
    simp [nodeAt, NodeTree.children, hc]
  have hg : globalAt L (NodeTree.node nm lt cs) (i :: p) =
      (globalAt L c p).map fun M => L nm lt * M := by
    simp [globalAt, NodeTree.children, hc, NodeTree.name, NodeTree.localT]
  unfold poseSpec
  rw [hn, hg]
  cases hnd : nodeAt c p with
  | none =>
    cases hG2 : globalAt L c p <;> rfl
  | some nd =>
    cases hG2 : globalAt L c p with
    | none => rfl
    | some g =>
      show (B nd.name).map _ = (B nd.name).map _
      congr 1
      funext bo
      simp [mul_assoc]

lemma evalNode_eq_poseSpec (L : String → Mat4 → Mat4)
    (B : String → Option (ℕ × Mat4)) :
    ∀ t G, evalNode L B G t = (preorderPaths t).filterMap (poseSpec L B t G) := by
  intro t
  induction t using NodeTree.strongInd with
  | h nm lt cs IH =>
    intro G
    have hroot : poseSpec L B (NodeTree.node nm lt cs) G [] =
        (B nm).map fun bo => (bo.1, (G * L nm lt) * bo.2) := rfl
    have hlist : ∀ (cs' : List NodeTree), (∀ c ∈ cs', ∀ G0,
        evalNode L B G0 c = (preorderPaths c).filterMap (poseSpec L B c G0)) →
        ∀ (i : ℕ), (∀ k, cs'[k]? = cs[i + k]?) →
        evalNodeList L B (G * L nm lt) cs' =
          (preorderPathsList cs' i).filterMap (poseSpec L B (NodeTree.node nm lt cs) G) := by
      intro cs'
      induction cs' with
      | nil => intro _ i _; simp [evalNodeList, preorderPathsList]
      | cons c cs'' ihl =>
        intro hIH i hk
        have hc : cs[i]? = some c := by
          have := hk 0
          simpa using this.symm
        simp only [evalNodeList, preorderPathsList, List.filterMap_append]
        congr 1
        · rw [List.filterMap_map,
            show (poseSpec L B (NodeTree.node nm lt cs) G ∘ (i :: ·)) =
              poseSpec L B c (G * L nm lt) from
              funext fun p => poseSpec_cons L B nm lt cs i c hc G p]
          exact hIH c (List.mem_cons_self c cs'') (G * L nm lt)
        · refine ihl (fun c2 hc2 => hIH c2 (List.mem_cons_of_mem c hc2)) (i + 1) ?_
          intro k
          have := hk (k + 1)
          have harith : i + (k + 1) = i + 1 + k := by omega
          rw [harith] at this
          simpa using this
    simp only [evalNode, preorderPaths, List.filterMap_cons, hroot]
    cases hB : B nm with
    | none =>
      simp only [Option.map_none']
      exact hlist cs (fun c hc => IH c hc) 0 (fun k => by simp)
    | some bo =>
      simp only [Option.map_some', List.nil_append]
      rw [hlist cs (fun c hc => IH c hc) 0 (fun k => by simp)]
      rfl

lemma globalAt_append (L : String → Mat4 → Mat4) :
    ∀ (p : List ℕ) (t : NodeTree) (i : ℕ) (n c : NodeTree),
      nodeAt t p = some n → n.children[i]? = some c →
      globalAt L t (p ++ [i]) = (globalAt L t p).map (· * L c.name c.localT) := by
  intro p
  induction p with
  | nil =>
    intro t i n c hn hc
    have ht : t = n := by simpa [nodeAt] using hn
    subst ht
    simp [globalAt, hc]
  | cons j p' ih =>
    intro t i n c hn hc
    cases ht : t.children[j]? with
    | none => simp [nodeAt, ht] at hn
    | some c' =>
      have hn' : nodeAt c' p' = some n := by simpa [nodeAt, ht] using hn
      have hrec := ih c' i n c hn' hc
      have hL : globalAt L t (j :: (p' ++ [i])) =
          (globalAt L c' (p' ++ [i])).map fun M => L t.name t.localT * M := by
        simp [globalAt, ht]
      have hR : globalAt L t (j :: p') =
          (globalAt L c' p').map fun M => L t.name t.localT * M := by
        simp [globalAt, ht]
      calc globalAt L t ((j :: p') ++ [i])
          = globalAt L t (j :: (p' ++ [i])) := by simp
        _ = (globalAt L c' (p' ++ [i])).map (fun M => L t.name t.localT * M) := hL
        _ = ((globalAt L c' p').map (· * L c.name c.localT)).map
              (fun M => L t.name t.localT * M) := by rw [hrec]
        _ = ((globalAt L c' p').map (fun M => L t.name t.localT * M)).map
              (· * L c.name c.localT) := by
            cases globalAt L c' p' with
            | none => rfl
            | some g => simp [mul_assoc]
        _ = (globalAt L t (j :: p')).map (· * L c.name c.localT) := by rw [hR]

lemma evalNode_fst (L : String → Mat4 → Mat4) (B : String → Option (ℕ × Mat4)) :
    ∀ t G, (evalNode L B G t).map Prod.fst = collectBoneIds B t := by
  intro t
  induction t using NodeTree.strongInd with
  | h nm lt cs IH =>
    intro G
    have hlist : ∀ (cs' : List NodeTree),
        (∀ c ∈ cs', ∀ G0, (evalNode L B G0 c).map Prod.fst = collectBoneIds B c) →
        ∀ G0, (evalNodeList L B G0 cs').map Prod.fst = collectBoneIdsList B cs' := by
      intro cs'
      induction cs' with
      | nil => intro _ G0; simp [evalNodeList, collectBoneIdsList]
      | cons c cs'' ihl =>
        intro hIH G0
        simp only [evalNodeList, collectBoneIdsList, List.map_append]
        rw [hIH c (List.mem_cons_self c cs'') G0,
          ihl (fun c2 h2 => hIH c2 (List.mem_cons_of_mem c h2)) G0]
    simp only [evalNode, collectBoneIds, List.map_append]
    rw [hlist cs IH (G * L nm lt)]
    congr 1
    cases B nm <;> rfl

lemma filter_eq_nil_of_fst_mem (l : List (ℕ × Mat4)) (A : List ℕ)
    (h : ∀ x ∈ l.map Prod.fst, x ∈ A) :
    l.filter (fun e => decide (e.1 ∉ A)) = [] := by
  induction l with
  | nil => rfl
  | cons e l ih =>
    have he : e.1 ∈ A := h e.1 (by simp)
    simp only [List.filter_cons]
    have hd : (decide (e.1 ∉ A)) = false := by simp [he]
    rw [hd]
    simp only [Bool.false_eq_true, if_false]
    exact ih fun x hx => h x (by simp [hx])

lemma evalNode_filter_eq (L L' : String → Mat4 → Mat4)
    (B : String → Option (ℕ × Mat4)) (pred : String → Bool)
    (hLL : ∀ nm st, pred nm = false → L' nm st = L nm st) (A : List ℕ) :
    ∀ t, (∀ x ∈ affectedIds pred B t, x ∈ A) → ∀ G,
      (evalNode L' B G t).filter (fun e => decide (e.1 ∉ A)) =
        (evalNode L B G t).filter (fun e => decide (e.1 ∉ A)) := by
  intro t
  induction t using NodeTree.strongInd with
  | h nm lt cs IH =>
    intro hsub G
    by_cases hp : pred nm = true
    · have hA : ∀ x ∈ collectBoneIds B (NodeTree.node nm lt cs), x ∈ A := by
        intro x hx
        exact hsub x (by simpa [affectedIds, hp] using hx)
      rw [filter_eq_nil_of_fst_mem _ A (by rw [evalNode_fst]; exact hA),
        filter_eq_nil_of_fst_mem _ A (by rw [evalNode_fst]; exact hA)]
    · have hp' : pred nm = false := by simpa using hp
      have hLeq : L' nm lt = L nm lt := hLL nm lt hp'
      have hsub' : ∀ x ∈ affectedIdsList pred B cs, x ∈ A := by
        intro x hx
        exact hsub x (by simpa [affectedIds, hp'] using hx)
      have hlist : ∀ (cs' : List NodeTree),
          (∀ c ∈ cs', (∀ x ∈ affectedIds pred B c, x ∈ A) → ∀ G0,
            (evalNode L' B G0 c).filter (fun e => decide (e.1 ∉ A)) =
              (evalNode L B G0 c).filter (fun e => decide (e.1 ∉ A))) →
          (∀ x ∈ affectedIdsList pred B cs', x ∈ A) → ∀ G0,
          (evalNodeList L' B G0 cs').filter (fun e => decide (e.1 ∉ A)) =
            (evalNodeList L B G0 cs').filter (fun e => decide (e.1 ∉ A)) := by
        intro cs'
        induction cs' with
        | nil => intro _ _ G0; rfl
        | cons c cs'' ihl =>
          intro hIHm hsubl G0
          simp only [evalNodeList, List.filter_append]
          rw [hIHm c (List.mem_cons_self c cs'')
              (fun x hx => hsubl x (by
                simp only [affectedIdsList]
                exact List.mem_append_left _ hx)) G0,
            ihl (fun c2 h2 => hIHm c2 (List.mem_cons_of_mem c h2))
              (fun x hx => hsubl x (by
                simp only [affectedIdsList]
                exact List.mem_append_right _ hx)) G0]
      simp only [evalNode, List.filter_append, hLeq]
      congr 1
      exact hlist cs (fun c hc => IH c hc) hsub' (G * L nm lt)

lemma find?_filter_of_imp {α : Type} (p q : α → Bool)
    (h : ∀ x, p x = true → q x = true) :
    ∀ l : List α, (l.filter q).find? p = l.find? p := by
  intro l
  induction l with
  | nil => rfl
  | cons x l ih =>
    by_cases hq : q x = true
    · by_cases hp : p x = true <;> simp [List.filter_cons, List.find?_cons, hp, hq, ih]
    · have hp : p x = false := by
        cases hpx : p x with
        | true => exact absurd (h x hpx) hq
        | false => rfl
      have hq' : q x = false := by simpa using hq
      simp [List.filter_cons, List.find?_cons, hp, hq', ih]

lemma poseLookup_eq_of_filter (pose1 pose2 : Pose) (A : List ℕ) (c : ℕ)
    (hc : c ∉ A)
    (h : pose1.filter (fun e => decide (e.1 ∉ A)) =
      pose2.filter (fun e => decide (e.1 ∉ A))) :
    poseLookup pose1 c = poseLookup pose2 c := by
  have himp : ∀ e : ℕ × Mat4, (e.1 == c) = true → (decide (e.1 ∉ A)) = true := by
    intro e he
    have he' : e.1 = c := by simpa using he
    simp [he', hc]
  unfold poseLookup
  rw [← find?_filter_of_imp _ _ himp pose1.reverse,
    ← find?_filter_of_imp _ _ himp pose2.reverse,
    List.filter_reverse, List.filter_reverse, h]

lemma skinMatrix_congr (B1 B2 : ℕ → Mat4) (ws : List (ℕ × ℝ))
    (h : ∀ bw ∈ ws, B1 bw.1 = B2 bw.1) :
    skinMatrix B1 ws = skinMatrix B2 ws := by
  cases ws with
  | nil => rfl
  | cons bw ws' =>
    simp only [skinMatrix]
    congr 1
    apply List.map_congr_left
    intro a ha
    rw [h a ha]

lemma skinMesh_congr (B1 B2 : ℕ → Mat4) (mesh : Mesh)
    (h : ∀ v ∈ mesh.vertices, ∀ bw ∈ v.weights, B1 bw.1 = B2 bw.1) :
    skinMesh B1 mesh = skinMesh B2 mesh := by
  unfold skinMesh
  congr 1
  · apply List.map_congr_left
    intro v hv
    rw [skinMatrix_congr B1 B2 v.weights (h v hv)]
  · apply List.map_congr_left
    intro v hv
    rw [skinMatrix_congr B1 B2 v.weights (h v hv)]

lemma findIdx?_cons_eq {α : Type} (p : α → Bool) (a : α) (l : List α) :
    (a :: l).findIdx? p = if p a then some 0 else (l.findIdx? p).map (· + 1) := by
  rw [List.findIdx?_cons]
  by_cases h : p a <;> simp [h, List.findIdx?_succ]

lemma findIdx?_congr {α β : Type} (p : α → Bool) (q : β → Bool) :
    ∀ (l1 : List α) (l2 : List β), l1.map p = l2.map q →
      l1.findIdx? p = l2.findIdx? q := by
  intro l1
  induction l1 with
  | nil =>
    intro l2 h
    cases l2 with
    | nil => rfl
    | cons b l2' => simp at h
  | cons a l1' ih =>
    intro l2 h
    cases l2 with
    | nil => simp at h
    | cons b l2' =>
      simp only [List.map_cons, List.cons.injEq] at h
      rw [findIdx?_cons_eq, findIdx?_cons_eq, h.1, ih l2' h.2]

lemma boneIdOf_set (bones : List Bone) (b : ℕ) (hb : b < bones.length) (newT : Mat4) :
    boneIdOf (bones.set b { bones.get ⟨b, hb⟩ with transformation := newT }) =
      boneIdOf bones := by
  funext nm
  unfold boneIdOf
  apply findIdx?_congr
  apply List.ext_getElem?
  intro n
  by_cases hn : n = b
  · subst hn
    rw [List.getElem?_map, List.getElem?_map, List.getElem?_set_eq hb,
      List.getElem?_eq_getElem hb]
    rfl
  · rw [List.getElem?_map, List.getElem?_map,
      List.getElem?_set_ne (fun h => hn h.symm)]

lemma boneOfModel_set (bones : List Bone) (b : ℕ) (hb : b < bones.length)
    (newT : Mat4) :
    boneOfModel (bones.set b { bones.get ⟨b, hb⟩ with transformation := newT }) =
      boneOfModel bones := by
  funext nm
  unfold boneOfModel
  rw [boneIdOf_set bones b hb newT]
  cases hid : boneIdOf bones nm with
  | none => rfl
  | some c =>
    simp only [Option.some_bind]
    by_cases hc : c = b
    · subst hc
      rw [List.get?_eq_getElem?, List.get?_eq_getElem?, List.getElem?_set_self hb,
        List.getElem?_eq_getElem hb]
      rfl
    · rw [List.get?_eq_getElem?, List.get?_eq_getElem?,
        List.getElem?_set_ne (fun h => hc h.symm)]

lemma localOfModel_set_ne (bones : List Bone) (b : ℕ) (hb : b < bones.length)
    (newT : Mat4) (clip : Clip) (tT : ℝ) (nm : String) (st : Mat4)
    (hne : boneIdOf bones nm ≠ some b) :
    localOfModel (bones.set b { bones.get ⟨b, hb⟩ with transformation := newT })
        clip tT nm st = localOfModel bones clip tT nm st := by
  unfold localOfModel
  rw [boneIdOf_set bones b hb newT]
  cases hid : boneIdOf bones nm with
  | none => rfl
  | some c =>
    have hc : c ≠ b := fun h => hne (by rw [hid, h])
    show (Option.map Bone.transformation
        ((bones.set b { bones.get ⟨b, hb⟩ with transformation := newT }).get? c)).getD st =
      (Option.map Bone.transformation (bones.get? c)).getD st
    rw [List.get?_eq_getElem?, List.get?_eq_getElem?,
      List.getElem?_set_ne (fun h => hc h.symm)]

lemma localOfModel_set_self (bones : List Bone) (b : ℕ) (hb : b < bones.length)
    (newT : Mat4) (clip : Clip) (tT : ℝ) (nm : String) (st : Mat4)
    (hid : boneIdOf bones nm = some b) :
    localOfModel (bones.set b { bones.get ⟨b, hb⟩ with transformation := newT })
        clip tT nm st = newT := by
  unfold localOfModel
  rw [boneIdOf_set bones b hb newT, hid]
  show (Option.map Bone.transformation
      ((bones.set b { bones.get ⟨b, hb⟩ with transformation := newT }).get? b)).getD st = newT
  rw [List.get?_eq_getElem?, List.getElem?_set_self hb]
  rfl

lemma getD_set_self_list (l : List (List ℕ)) (i : ℕ) (x : List ℕ)
    (h : i < l.length) : (l.set i x).getD i [] = x := by
  rw [List.getD_eq_getElem?_getD, List.getElem?_set_self h]
  rfl

lemma getD_set_ne_list (l : List (List ℕ)) (i j : ℕ) (x : List ℕ)
    (h : i ≠ j) : (l.set i x).getD j [] = l.getD j [] := by
  rw [List.getD_eq_getElem?_getD, List.getElem?_set_ne h, ← List.getD_eq_getElem?_getD]

lemma parentOf_lt (bones : List BoneH) (c p : ℕ) (h : parentOf bones c = some p) :
    c < bones.length := by
  unfold parentOf at h
  cases hg : bones[c]? with
  | none => rw [hg] at h; exact absurd h (by simp)
  | some bn => exact (List.getElem?_eq_some.mp hg).1

lemma children_foldl (bones : List BoneH) :
    ∀ (l : List ℕ) (acc : List (List ℕ)),
      (∀ cb ∈ l, ∀ p, parentOf bones cb = some p → p < acc.length) →
      ∀ p,
      (l.foldl (fun acc cb =>
        match parentOf bones cb with
        | some q => acc.set q (acc.getD q [] ++ [cb])
        | none => acc) acc).getD p [] =
        acc.getD p [] ++ l.filter (fun c => parentOf bones c == some p) := by
  intro l
  induction l with
  | nil => intro acc _ p; simp
  | cons cb l' ih =>
    intro acc hvalid p
    simp only [List.foldl_cons, List.filter_cons]
    cases hpar : parentOf bones cb with
    | none =>
      exact ih acc (fun cb' h' p' hp' => hvalid cb' (List.mem_cons_of_mem cb h') p' hp') p
    | some q =>
      have hq : q < acc.length := hvalid cb (List.mem_cons_self cb l') q hpar
      refine Eq.trans (ih (acc.set q (acc.getD q [] ++ [cb]))
        (fun cb' h' p' hp' => by
          rw [List.length_set]
          exact hvalid cb' (List.mem_cons_of_mem cb h') p' hp') p) ?_
      by_cases hpq : q = p
      · subst hpq
        rw [if_pos (by simp), getD_set_self_list acc q _ hq]
        simp
      · rw [if_neg (by simp [hpq]), getD_set_ne_list acc q p _ hpq]

lemma children_char (bones : List BoneH) (d : ℕ → ℕ)
    (hd : ∀ c p, parentOf bones c = some p → p < bones.length ∧ d p < d c) :
    ∀ p, (boneChildrenIds bones).getD p [] =
      (List.range bones.length).filter fun c => parentOf bones c == some p := by
  intro p
  unfold boneChildrenIds
  rw [children_foldl bones (List.range bones.length) (List.replicate bones.length [])
    (fun cb _ p' hp' => by
      rw [List.length_replicate]
      exact (hd cb p' hp').1) p]
  by_cases hp : p < bones.length
  · rw [List.getD_eq_getElem?_getD, List.getElem?_replicate]
    simp [hp]
  · rw [List.getD_eq_getElem?_getD, List.getElem?_replicate]
    have hnone : ∀ c ∈ List.range bones.length, ¬((parentOf bones c == some p) = true) := by
      intro c _ hcp
      have : parentOf bones c = some p := by simpa using hcp
      exact hp ((hd c p this).1)
    rw [List.filter_eq_nil_iff.mpr hnone]
    simp [hp]

lemma printBoneRec_eq_map (children : List (List ℕ)) (names : List String) :
    ∀ (fuel b lvl : ℕ),
      printBoneRec children names fuel b lvl =
        (visitRec children fuel b lvl).map fun e => boneLine names e.1 e.2 := by
  intro fuel
  induction fuel with
  | zero => intro b lvl; rfl
  | succ f ih =>
    intro b lvl
    simp only [printBoneRec, visitRec, List.map_cons]
    congr 1
    have hfun : (fun c => printBoneRec children names f c (lvl + 1)) =
        fun c => (visitRec children f c (lvl + 1)).map fun e => boneLine names e.1 e.2 :=
      funext fun c => ih c (lvl + 1)
    rw [hfun, List.map_bind]

lemma printBoneHierarchy_eq_map (m : HModel) :
    printBoneHierarchy m =
      (visitPairs m).map fun e => boneLine (boneId2BoneName m) e.1 e.2 := by
  unfold printBoneHierarchy visitPairs
  rw [List.map_bind]
  congr 1
  funext cb
  exact printBoneRec_eq_map (boneChildrenIds m.bones) (boneId2BoneName m) m.bones.length cb 0

lemma anc_d_le (bones : List BoneH) (d : ℕ → ℕ)
    (hd : ∀ c p, parentOf bones c = some p → p < bones.length ∧ d p < d c) :
    ∀ {x y : ℕ}, AncOf bones x y → d x ≤ d y := by
  intro x y h
  induction h with
  | refl => exact le_refl _
  | tail _ hstep ih => exact le_trans ih (le_of_lt (hd _ _ hstep).2)

lemma anc_no_cycle (bones : List BoneH) (d : ℕ → ℕ)
    (hd : ∀ c p, parentOf bones c = some p → p < bones.length ∧ d p < d c)
    {ch b : ℕ} (hp : parentOf bones ch = some b) (h : AncOf bones ch b) : False := by
  have h1 := anc_d_le bones d hd h
  have h2 := (hd ch b hp).2
  omega

lemma anc_total (bones : List BoneH) : ∀ {x y c : ℕ}, AncOf bones x c →
    AncOf bones y c → AncOf bones x y ∨ AncOf bones y x := by
  intro x y c hx hy
  induction hx using Relation.ReflTransGen.head_induction_on with
  | refl => exact Or.inr hy
  | head hstep _ ih =>
    rcases ih with h1 | h1
    · exact Or.inl (Relation.ReflTransGen.head hstep h1)
    · rcases h1.cases_tail with heq | ⟨z, hyz, hz⟩
      · exact Or.inl (heq ▸ Relation.ReflTransGen.single hstep)
      · have hzx : z = _ := Option.some.inj (hz.symm.trans hstep)
        exact Or.inr (hzx ▸ hyz)

lemma anc_child_unique (bones : List BoneH) (d : ℕ → ℕ)
    (hd : ∀ c p, parentOf bones c = some p → p < bones.length ∧ d p < d c)
    {b c ch1 ch2 : ℕ}
    (hp1 : parentOf bones ch1 = some b) (hp2 : parentOf bones ch2 = some b)
    (h1 : AncOf bones ch1 c) (h2 : AncOf bones ch2 c) : ch1 = ch2 := by
  have key : ∀ {u v : ℕ}, parentOf bones u = some b → parentOf bones v = some b →
      AncOf bones u v → u = v := by
    intro u v hu hv huv
    rcases huv.cases_tail with heq | ⟨z, hz1, hz2⟩
    · exact heq.symm
    · have hzb : z = b := Option.some.inj (hz2.symm.trans hv)
      exact absurd (hzb ▸ hz1) fun hh => anc_no_cycle bones d hd hu hh
  rcases anc_total bones h1 h2 with h | h
  · exact key hp1 hp2 h
  · exact (key hp2 hp1 h).symm

lemma count_bind_nat (l : List ℕ) (f : ℕ → List ℕ) (c : ℕ) :
    (l.bind f).count c = (l.map fun x => (f x).count c).sum := by
  induction l with
  | nil => rfl
  | cons a l ih => simp [List.count_append, ih]

lemma map_sum_zero (l : List ℕ) (f : ℕ → ℕ) (h : ∀ x ∈ l, f x = 0) :
    (l.map f).sum = 0 := by
  apply List.sum_eq_zero
  intro y hy
  rcases List.mem_map.mp hy with ⟨x, hx, hfx⟩
  rw [← hfx]
  exact h x hx

lemma map_sum_one (l : List ℕ) (f : ℕ → ℕ) (hnd : l.Nodup) (x : ℕ) (hx : x ∈ l)
    (h1 : f x = 1) (h0 : ∀ y ∈ l, y ≠ x → f y = 0) : (l.map f).sum = 1 := by
  induction l with
  | nil => simp at hx
  | cons a l ih =>
    have hand := List.nodup_cons.mp hnd
    rcases List.mem_cons.mp hx with heq | hmem
    · subst heq
      have hzero : (l.map f).sum = 0 := by
        apply map_sum_zero
        intro y hy
        exact h0 y (List.mem_cons_of_mem x hy) fun hyx => hand.1 (hyx ▸ hy)
      simp [h1, hzero]
    · have ha0 : f a = 0 := h0 a (List.mem_cons_self a l) fun hax => hand.1 (hax ▸ hmem)
      have := ih hand.2 hmem fun y hy hyx => h0 y (List.mem_cons_of_mem a hy) hyx
      simp [ha0, this]

lemma card_lt_of_mem_range (A : Finset ℕ) (n b : ℕ) (hb : b < n) (hbA : b ∉ A)
    (hA : ∀ a ∈ A, a < n) : A.card < n := by
  have hsub : insert b A ⊆ Finset.range n := by
    intro x hx
    rcases Finset.mem_insert.mp hx with rfl | hx'
    · exact Finset.mem_range.mpr hb
    · exact Finset.mem_range.mpr (hA x hx')
  have hcard := Finset.card_le_card hsub
  rw [Finset.card_insert_of_not_mem hbA, Finset.card_range] at hcard
  omega

lemma mem_children_iff (bones : List BoneH) (children : List (List ℕ))
    (hch : ∀ b, children.getD b [] =
      (List.range bones.length).filter fun c => parentOf bones c == some b)
    (b ch : ℕ) :
    ch ∈ children.getD b [] ↔ ch < bones.length ∧ parentOf bones ch = some b := by
  rw [hch b, List.mem_filter, List.mem_range]
  constructor
  · rintro ⟨hl, hr⟩
    exact ⟨hl, by simpa using hr⟩
  · rintro ⟨hl, hr⟩
    exact ⟨hl, by simp [hr]⟩

lemma visit_count (bones : List BoneH) (d : ℕ → ℕ)
    (hd : ∀ c p, parentOf bones c = some p → p < bones.length ∧ d p < d c)
    (children : List (List ℕ))
    (hch : ∀ b, children.getD b [] =
      (List.range bones.length).filter fun c => parentOf bones c == some b) :
    ∀ (fuel : ℕ) (A : Finset ℕ) (b lvl : ℕ), b < bones.length → b ∉ A →
      (∀ a ∈ A, a < bones.length ∧ d a < d b) → bones.length ≤ fuel + A.card →
      ∀ c, (AncOf bones b c →
          ((visitRec children fuel b lvl).map Prod.fst).count c = 1) ∧
        (¬ AncOf bones b c →
          ((visitRec children fuel b lvl).map Prod.fst).count c = 0) := by
  intro fuel
  induction fuel with
  | zero =>
    intro A b lvl hb hbA hA hfuel c
    exact absurd hfuel (by
      have := card_lt_of_mem_range A bones.length b hb hbA fun a ha => (hA a ha).1
      omega)
  | succ f ih =>
    intro A b lvl hb hbA hA hfuel c
    have hexp : ((visitRec children (f + 1) b lvl).map Prod.fst).count c =
        ((children.getD b []).map fun ch =>
          ((visitRec children f ch (lvl + 1)).map Prod.fst).count c).sum +
        (if (b == c) = true then 1 else 0) := by
      simp only [visitRec, List.map_cons, List.count_cons]
      congr 1
      rw [List.map_bind, count_bind_nat]
    have hchildIH : ∀ ch ∈ children.getD b [],
        (AncOf bones ch c →
          ((visitRec children f ch (lvl + 1)).map Prod.fst).count c = 1) ∧
        (¬ AncOf bones ch c →
          ((visitRec children f ch (lvl + 1)).map Prod.fst).count c = 0) := by
      intro ch hmem
      rcases (mem_children_iff bones children hch b ch).1 hmem with ⟨hchn, hchp⟩
      have hdbc : d b < d ch := (hd ch b hchp).2
      refine ih (insert b A) ch (lvl + 1) hchn ?_ ?_ ?_ c
      · intro hin
        rcases Finset.mem_insert.mp hin with rfl | hin'
        · exact lt_irrefl _ hdbc
        · have := (hA ch hin').2
          omega
      · intro a ha
        rcases Finset.mem_insert.mp ha with rfl | ha'
        · exact ⟨hb, hdbc⟩
        · exact ⟨(hA a ha').1, lt_trans (hA a ha').2 hdbc⟩
      · rw [Finset.card_insert_of_not_mem hbA]
        omega
    have hnd : (children.getD b []).Nodup := by
      rw [hch b]
      exact (List.nodup_range _).filter _
    constructor
    · intro hanc
      by_cases hbc : b = c
      · subst hbc
        rw [hexp]
        have hzero : ((children.getD b []).map fun ch =>
            ((visitRec children f ch (lvl + 1)).map Prod.fst).count b).sum = 0 := by
          apply map_sum_zero
          intro ch hm
          apply (hchildIH ch hm).2
          intro hcontra
          exact anc_no_cycle bones d hd
            ((mem_children_iff bones children hch b ch).1 hm).2 hcontra
        rw [hzero]
        simp
      · rw [hexp, if_neg (by simp [hbc])]
        rcases hanc.cases_head with heq | ⟨x, hx, hxc⟩
        · exact absurd heq hbc
        · have hxmem : x ∈ children.getD b [] :=
            (mem_children_iff bones children hch b x).2 ⟨parentOf_lt bones x b hx, hx⟩
          have hsum1 : ((children.getD b []).map fun ch =>
              ((visitRec children f ch (lvl + 1)).map Prod.fst).count c).sum = 1 := by
            apply map_sum_one _ _ hnd x hxmem
            · exact (hchildIH x hxmem).1 hxc
            · intro y hy hyx
              apply (hchildIH y hy).2
              intro hyc
              exact hyx (anc_child_unique bones d hd
                ((mem_children_iff bones children hch b y).1 hy).2 hx hyc hxc)
          rw [hsum1]
    · intro hnanc
      have hbc : b ≠ c := fun h => hnanc (h ▸ Relation.ReflTransGen.refl)
      rw [hexp, if_neg (by simp [hbc])]
      have hzero : ((children.getD b []).map fun ch =>
          ((visitRec children f ch (lvl + 1)).map Prod.fst).count c).sum = 0 := by
        apply map_sum_zero
        intro ch hm
        apply (hchildIH ch hm).2
        intro hcontra
        exact hnanc (Relation.ReflTransGen.head
          ((mem_children_iff bones children hch b ch).1 hm).2 hcontra)
      rw [hzero]

lemma exists_root_aux (bones : List BoneH) (d : ℕ → ℕ)
    (hd : ∀ c p, parentOf bones c = some p → p < bones.length ∧ d p < d c) :
    ∀ (k c : ℕ), d c ≤ k → c < bones.length →
      ∃ r, r < bones.length ∧ parentOf bones r = none ∧ AncOf bones r c := by
  intro k
  induction k with
  | zero =>
    intro c hk hc
    cases hp : parentOf bones c with
    | none => exact ⟨c, hc, hp, Relation.ReflTransGen.refl⟩
    | some p =>
      have := (hd c p hp).2
      omega
  | succ k ih =>
    intro c hk hc
    cases hp : parentOf bones c with
    | none => exact ⟨c, hc, hp, Relation.ReflTransGen.refl⟩
    | some p =>
      obtain ⟨hpn, hdp⟩ := hd c p hp
      obtain ⟨r, h1, h2, h3⟩ := ih p (by omega) hpn
      exact ⟨r, h1, h2, h3.tail hp⟩

lemma root_unique (bones : List BoneH) {r1 r2 c : ℕ}
    (h1 : parentOf bones r1 = none) (h2 : parentOf bones r2 = none)
    (ha1 : AncOf bones r1 c) (ha2 : AncOf bones r2 c) : r1 = r2 := by
  have key : ∀ {u v : ℕ}, parentOf bones v = none → AncOf bones u v → u = v := by
    intro u v hv huv
    rcases huv.cases_tail with heq | ⟨z, hz1, hz2⟩
    · exact heq.symm
    · rw [hv] at hz2
      exact absurd hz2 (by simp)
  rcases anc_total bones ha1 ha2 with h | h
  · exact key h2 h
  · exact (key h1 h).symm

lemma mem_rootBoneIds (bones : List BoneH) (r : ℕ) :
    r ∈ rootBoneIds bones ↔ r < bones.length ∧ parentOf bones r = none := by
  unfold rootBoneIds
  rw [List.mem_filter, List.mem_range]
  constructor
  · rintro ⟨h1, h2⟩
    refine ⟨h1, ?_⟩
    have hg : bones[r]? = some bones[r] := List.getElem?_eq_getElem h1
    have hgd : bones.getD r ⟨false, 0⟩ = bones[r] := by
      rw [List.getD_eq_getElem?_getD, hg]
      rfl
    rw [hgd] at h2
    unfold parentOf
    rw [hg]
    cases hh : bones[r].hasParentBoneId with
    | false => simp [hh]
    | true => rw [hh] at h2; exact absurd h2 (by simp)
  · rintro ⟨h1, h2⟩
    refine ⟨h1, ?_⟩
    have hg : bones[r]? = some bones[r] := List.getElem?_eq_getElem h1
    have hgd : bones.getD r ⟨false, 0⟩ = bones[r] := by
      rw [List.getD_eq_getElem?_getD, hg]
      rfl
    unfold parentOf at h2
    rw [hg] at h2
    rw [hgd]
    cases hh : bones[r].hasParentBoneId with
    | false => simp [hh]
    | true => simp [hh] at h2

lemma visit_depth (bones : List BoneH) (children : List (List ℕ))
    (hch : ∀ b c, c ∈ children.getD b [] → parentOf bones c = some b) :
    ∀ (fuel b lvl : ℕ), DepthIs bones b lvl →
      ∀ e ∈ visitRec children fuel b lvl, DepthIs bones e.1 e.2 := by
  intro fuel
  induction fuel with
  | zero => intro b lvl _ e he; simp [visitRec] at he
  | succ f ih =>
    intro b lvl hb e he
    simp only [visitRec, List.mem_cons] at he
    rcases he with he | he
    · exact he ▸ hb
    · rcases List.mem_bind.mp he with ⟨c, hc, hec⟩
      exact ih c (lvl + 1) (DepthIs.step c b lvl (hch b c hc) hb) e hec

lemma bind_sublist {α β : Type} (g : α → List β) (l : List α) (x : α) (hx : x ∈ l)
    (s : List β) (hs : s.Sublist (g x)) : s.Sublist (l.bind g) := by
  induction l with
  | nil => simp at hx
  | cons a l ih =>
    rcases List.mem_cons.mp hx with heq | hmem
    · subst heq
      exact hs.trans (List.sublist_append_left _ _)
    · exact (ih hmem).trans (List.sublist_append_right _ _)

lemma visit_sublist (bones : List BoneH) (d : ℕ → ℕ)
    (hd : ∀ c p, parentOf bones c = some p → p < bones.length ∧ d p < d c)
    (children : List (List ℕ))
    (hch : ∀ b, children.getD b [] =
      (List.range bones.length).filter fun c => parentOf bones c == some b) :
    ∀ (fuel : ℕ) (A : Finset ℕ) (b lvl : ℕ), b < bones.length → b ∉ A →
      (∀ a ∈ A, a < bones.length ∧ d a < d b) → bones.length ≤ fuel + A.card →
      ∀ a c, AncOf bones b a → AncOf bones a c → a ≠ c →
        [a, c].Sublist ((visitRec children fuel b lvl).map Prod.fst) := by
  intro fuel
  induction fuel with
  | zero =>
    intro A b lvl hb hbA hA hfuel
    exact absurd hfuel (by
      have := card_lt_of_mem_range A bones.length b hb hbA fun a ha => (hA a ha).1
      omega)
  | succ f ih =>
    intro A b lvl hb hbA hA hfuel a c hba hac hne
    have hconds : ∀ x, parentOf bones x = some b →
        x < bones.length ∧ x ∉ insert b A ∧
        (∀ a2 ∈ insert b A, a2 < bones.length ∧ d a2 < d x) ∧
        bones.length ≤ f + (insert b A).card := by
      intro x hx
      have hxn : x < bones.length := parentOf_lt bones x b hx
      have hdbx : d b < d x := (hd x b hx).2
      refine ⟨hxn, ?_, ?_, ?_⟩
      · intro hin
        rcases Finset.mem_insert.mp hin with rfl | hin'
        · exact lt_irrefl _ hdbx
        · have := (hA x hin').2
          omega
      · intro a2 ha2
        rcases Finset.mem_insert.mp ha2 with rfl | ha2'
        · exact ⟨hb, hdbx⟩
        · exact ⟨(hA a2 ha2').1, lt_trans (hA a2 ha2').2 hdbx⟩
      · rw [Finset.card_insert_of_not_mem hbA]
        omega
    simp only [visitRec, List.map_cons]
    by_cases hab : a = b
    · subst hab
      apply List.Sublist.cons₂
      rw [List.singleton_sublist, List.map_bind]
      rcases hac.cases_head with heq | ⟨x, hx, hxc⟩
      · exact absurd heq hne
      · obtain ⟨hxn, hnin, hAin, hfin⟩ := hconds x hx
        have hxmem : x ∈ children.getD a [] :=
          (mem_children_iff bones children hch a x).2 ⟨hxn, hx⟩
        have hcount := (visit_count bones d hd children hch f (insert a A) x (lvl + 1)
          hxn hnin hAin hfin c).1 hxc
        have hmem : c ∈ (visitRec children f x (lvl + 1)).map Prod.fst :=
          List.count_pos_iff.mp (by rw [hcount]; norm_num)
        exact List.mem_bind.mpr ⟨x, hxmem, hmem⟩
    · rcases hba.cases_head with heq | ⟨x, hx, hxa⟩
      · exact absurd heq.symm hab
      · obtain ⟨hxn, hnin, hAin, hfin⟩ := hconds x hx
        have hxmem : x ∈ children.getD b [] :=
          (mem_children_iff bones children hch b x).2 ⟨hxn, hx⟩
        have hsub := ih (insert b A) x (lvl + 1) hxn hnin hAin hfin a c hxa hac hne
        refine List.Sublist.cons _ ?_
        rw [List.map_bind]
        exact bind_sublist _ _ x hxmem _ hsub

/-! ### Claim theorems -/

/-- Claim C6, counterexample: for the unit quaternions `q0 = (1,0,0,0)` and
`q1 = (-1,0,0,0)` the dot product is negative, and SLERP at factor 1 yields
`-q1`, not `q1`: the claim "at factor 1 yields q1" fails as stated. -/
theorem slerp_one_counterexample :
    unitQuat ⟨1, 0, 0, 0⟩ ∧ unitQuat ⟨-1, 0, 0, 0⟩ ∧
      slerp ⟨1, 0, 0, 0⟩ ⟨-1, 0, 0, 0⟩ 1 ≠ ⟨-1, 0, 0, 0⟩ := by
  refine ⟨by simp only [unitQuat, qdot]; norm_num, by simp only [unitQuat, qdot]; norm_num, ?_⟩
  have h := slerp_one ⟨1, 0, 0, 0⟩ ⟨-1, 0, 0, 0⟩
  have hd : qdot ⟨1, 0, 0, 0⟩ ⟨-1, 0, 0, 0⟩ < 0 := by
    simp [qdot]
  rw [h, if_pos hd]
  intro hcontra
  have := congrArg Quat.w hcontra
  simp [qneg] at this
  linarith

/-- Claim C6 (amended): SLERP at factor 0 yields `q0`; at factor 1 it yields
`q1` when the endpoints' dot product is nonnegative and `qneg q1` (the same
rotation) when it is negative; the shortest arc is taken in the sense that the
corrected far endpoint has nonnegative dot product with `q0`. -/
theorem slerp_endpoints (q0 q1 : Quat) :
    slerp q0 q1 0 = q0 ∧
      slerp q0 q1 1 = (if qdot q0 q1 < 0 then qneg q1 else q1) ∧
      0 ≤ qdot q0 (if qdot q0 q1 < 0 then qneg q1 else q1) := by
  refine ⟨slerp_zero q0 q1, slerp_one q0 q1, ?_⟩
  by_cases h : qdot q0 q1 < 0
  · rw [if_pos h, qdot_qneg]
    linarith
  · rw [if_neg h]
    linarith [not_lt.mp h]

/-- Claim C7: for a rigid-plus-uniform-scale affine matrix — built from a
uniform scale `c > 0`, an orthogonal rotation `R`, and a translation `t` —
recomposing the result of `decompose` yields the matrix back exactly (the
real-valued model makes "within numerical tolerance" exact). -/
theorem compose_decompose_roundtrip (c : ℝ) (hc : 0 < c) (R : Mat3)
    (hR : R.transpose * R = 1) (t : Vec3) :
    compose (decompose (compose ⟨c, c, c⟩ R t)).1
      (decompose (compose ⟨c, c, c⟩ R t)).2.1
      (decompose (compose ⟨c, c, c⟩ R t)).2.2 = compose ⟨c, c, c⟩ R t := by
  have hcol := compose_colNorm c hc R hR t
  set M : Mat4 := compose ⟨c, c, c⟩ R t with hM
  ext i j
  by_cases hi : (i : ℕ) < 3
  · by_cases hj : (j : ℕ) < 3
    · have hfi : (⟨(i : ℕ), hi⟩ : Fin 3).castSucc = i := Fin.ext (by simp)
      have hfj : (⟨(j : ℕ), hj⟩ : Fin 3).castSucc = j := Fin.ext (by simp)
      simp only [compose, Matrix.of_apply, dif_pos hi, dif_pos hj, decompose,
        nth_colNorms, hfi, hfj]
      rw [hcol]
      have hcne : c ≠ 0 := ne_of_gt hc
      field_simp
    · have hj3 : (j : ℕ) = 3 := by omega
      have hfi : (⟨(i : ℕ), hi⟩ : Fin 3).castSucc = i := Fin.ext (by simp)
      have hnth : ∀ k : Fin 3,
          Vec3.nth ⟨M 0 3, M 1 3, M 2 3⟩ k = M k.castSucc 3 := by
        intro k; fin_cases k <;> rfl
      have hjf : j = (3 : Fin 4) := Fin.ext (by simpa using hj3)
      simp only [compose, Matrix.of_apply, dif_pos hi, dif_neg hj, decompose]
      rw [hnth, hfi, hjf]
  · simp only [compose, Matrix.of_apply, dif_neg hi, hM, decompose]

/-- Witness for claim C7: the round-trip at the concrete input `c = 2`,
`R = identity`, `t = (3, 4, 5)`. -/
theorem compose_decompose_roundtrip_witness :
    compose (decompose (compose ⟨2, 2, 2⟩ (1 : Mat3) ⟨3, 4, 5⟩)).1
      (decompose (compose ⟨2, 2, 2⟩ (1 : Mat3) ⟨3, 4, 5⟩)).2.1
      (decompose (compose ⟨2, 2, 2⟩ (1 : Mat3) ⟨3, 4, 5⟩)).2.2 =
      compose ⟨2, 2, 2⟩ (1 : Mat3) ⟨3, 4, 5⟩ :=
  compose_decompose_roundtrip 2 (by norm_num) 1 (by simp) ⟨3, 4, 5⟩

/-- Claim C1: for every model, mesh, and vertex of the mesh, `getMeshFrame`
produces, at the vertex's index, posed position `transform-point(M, p)` and
posed normal `normalize(transform-direction(M, n))`, where `M` is the weighted
sum `Σ_k weight_k · boneMatrix[boneId_k]` of the pose's skinning matrices, and
the identity matrix for a vertex with an empty weight list. -/
theorem getMeshFrame_skinning (m : SAModel) (mesh : Mesh) (i : ℕ) (v : Vertex)
    (hv : mesh.vertices[i]? = some v) :
    (getMeshFrame m mesh).vertices.length = mesh.vertices.length ∧
    (getMeshFrame m mesh).normals.length = mesh.vertices.length ∧
    (getMeshFrame m mesh).vertices[i]? =
      some (transformPoint (skinMatrix (poseLookup (currentPose m)) v.weights) v.pos) ∧
    (getMeshFrame m mesh).normals[i]? =
      some (normalize (transformDirection (skinMatrix (poseLookup (currentPose m)) v.weights)
        v.normal)) ∧
    (v.weights = [] → skinMatrix (poseLookup (currentPose m)) v.weights = 1) ∧
    (v.weights ≠ [] → skinMatrix (poseLookup (currentPose m)) v.weights =
      ∑ k : Fin v.weights.length,
        (v.weights.get k).2 • poseLookup (currentPose m) (v.weights.get k).1) := by
  refine ⟨by simp [getMeshFrame, skinMesh], by simp [getMeshFrame, skinMesh], ?_, ?_, ?_, ?_⟩
  · simp [getMeshFrame, skinMesh, List.getElem?_map, hv]
  · simp [getMeshFrame, skinMesh, List.getElem?_map, hv]
  · intro h
    simp [h, skinMatrix]
  · intro h
    match hw : v.weights with
    | [] => exact absurd hw h
    | bw :: ws =>
      rw [skinMatrix]
      exact list_map_sum_fin _ _

/-- Witness for claim C1: the skinning equations instantiated for the
concrete model `modelW` and its one-vertex mesh. -/
theorem getMeshFrame_skinning_witness :
    meshW.vertices[0]? = some ⟨⟨1, 2, 3⟩, ⟨0, 0, 1⟩, [(0, 1)]⟩ ∧
    ((getMeshFrame modelW meshW).vertices.length = meshW.vertices.length ∧
     (getMeshFrame modelW meshW).normals.length = meshW.vertices.length ∧
     (getMeshFrame modelW meshW).vertices[0]? =
       some (transformPoint (skinMatrix (poseLookup (currentPose modelW))
         (Vertex.mk ⟨1, 2, 3⟩ ⟨0, 0, 1⟩ [(0, 1)]).weights)
         (Vertex.mk ⟨1, 2, 3⟩ ⟨0, 0, 1⟩ [(0, 1)]).pos) ∧
     (getMeshFrame modelW meshW).normals[0]? =
       some (normalize (transformDirection (skinMatrix (poseLookup (currentPose modelW))
         (Vertex.mk ⟨1, 2, 3⟩ ⟨0, 0, 1⟩ [(0, 1)]).weights)
         (Vertex.mk ⟨1, 2, 3⟩ ⟨0, 0, 1⟩ [(0, 1)]).normal)) ∧
     ((Vertex.mk ⟨1, 2, 3⟩ ⟨0, 0, 1⟩ [(0, 1)] : Vertex).weights = [] →
       skinMatrix (poseLookup (currentPose modelW))
         (Vertex.mk ⟨1, 2, 3⟩ ⟨0, 0, 1⟩ [(0, 1)]).weights = 1) ∧
     ((Vertex.mk ⟨1, 2, 3⟩ ⟨0, 0, 1⟩ [(0, 1)] : Vertex).weights ≠ [] →
       skinMatrix (poseLookup (currentPose modelW))
         (Vertex.mk ⟨1, 2, 3⟩ ⟨0, 0, 1⟩ [(0, 1)]).weights =
         ∑ k : Fin (Vertex.mk ⟨1, 2, 3⟩ ⟨0, 0, 1⟩ [(0, 1)]).weights.length,
           ((Vertex.mk ⟨1, 2, 3⟩ ⟨0, 0, 1⟩ [(0, 1)]).weights.get k).2 •
             poseLookup (currentPose modelW)
               ((Vertex.mk ⟨1, 2, 3⟩ ⟨0, 0, 1⟩ [(0, 1)]).weights.get k).1)) :=
  ⟨rfl, getMeshFrame_skinning modelW meshW 0 ⟨⟨1, 2, 3⟩, ⟨0, 0, 1⟩, [(0, 1)]⟩ rfl⟩

/-- Claim C4: `drawFrame(clipId, tSeconds)` is observably equivalent to
`createFrame(clipId, tSeconds)` followed by, for each mesh of the model in
order, `getMeshFrame` and then `drawMeshFrame` of the returned frame. -/
theorem drawFrame_equiv_composed (m : SAModel) (clipId : ℕ) (tSeconds : ℝ) :
    drawFrame m clipId tSeconds = drawFrameComposed m clipId tSeconds := by
  unfold drawFrame drawFrameComposed
  cases h : createFrame m clipId tSeconds with
  | error e => rfl
  | ok m' =>
    simp only [Except.ok.injEq, Prod.mk.injEq, true_and]
    rw [show (fun acc mesh => acc ++ drawMeshFrame (getMeshFrame m' mesh)) =
      fun acc mesh => acc ++ [getMeshFrame m' mesh] from rfl]
    rw [foldl_append_map (fun mesh => getMeshFrame m' mesh) m'.meshes []]
    simp

/-- Claim C8: `createFrame` with a clip id that does not identify a clip fails
with `NoSuchClip` (no frame state is produced), while with a valid clip of
zero duration it succeeds with the sample time clamped to `tTicks = 0`. -/
theorem createFrame_errors :
    (∀ (m : SAModel) (cid : ℕ) (ts : ℝ), m.clips.get? cid = none →
      createFrame m cid ts = .error .NoSuchClip) ∧
    (∀ (m : SAModel) (cid : ℕ) (ts : ℝ) (clip : Clip), m.clips.get? cid = some clip →
      clip.duration = 0 →
      createFrame m cid ts = .ok (applyFrame m clip 0) ∧ computeTicks clip ts = 0) := by
  constructor
  · intro m cid ts h
    unfold createFrame
    rw [h]
  · intro m cid ts clip h hdur
    have hticks : computeTicks clip ts = 0 := by
      unfold computeTicks
      rw [if_pos hdur]
    constructor
    · unfold createFrame
      rw [h]
      show Except.ok (applyFrame m clip (computeTicks clip ts)) = _
      rw [hticks]
    · exact hticks

/-- Witness for claim C8: the concrete model `modelW` has a single clip (of
zero duration), so clip id 5 fails with `NoSuchClip` and clip id 0 succeeds
with tick time 0. -/
theorem createFrame_errors_witness :
    (modelW.clips.get? 5 = none ∧ createFrame modelW 5 0 = .error .NoSuchClip) ∧
    (modelW.clips.get? 0 = some ⟨0, 1, []⟩ ∧ (⟨0, 1, []⟩ : Clip).duration = 0 ∧
      createFrame modelW 0 0 = .ok (applyFrame modelW ⟨0, 1, []⟩ 0) ∧
      computeTicks ⟨0, 1, []⟩ 0 = 0) :=
  ⟨⟨rfl, (createFrame_errors.1) modelW 5 0 rfl⟩,
   ⟨rfl, rfl,
    (createFrame_errors.2) modelW 0 0 ⟨0, 1, []⟩ rfl rfl⟩⟩

/-- Claim C3: the clip-sampled local transform is `T · R · S` from the node's
channel (LERP for translation and scale keys, shortest-arc SLERP for rotation
keys), where the sample time is `fmod(tSeconds × ticksPerSecond, duration)`
folded into `[0, duration)`; each sequence is sampled at the largest index `i`
with `keys[i].time ≤ tTicks` (first value before the first key, last value at
or past the last key, factor 0 in both boundary cases); a node without a
channel keeps its static local transform. -/
theorem clip_sampling_correct :
    (∀ (clip : Clip) (tT : ℝ) (nm : String) (st : Mat4),
      clip.channels.lookup nm = none → nodeLocal clip tT nm st = st) ∧
    (∀ (clip : Clip) (tT : ℝ) (nm : String) (st : Mat4) (ch : Channel),
      clip.channels.lookup nm = some ch →
      nodeLocal clip tT nm st =
        trans4 (sampleKeys lerpV ⟨0, 0, 0⟩ ch.posKeys tT) *
          rot4 (sampleKeys slerp ⟨1, 0, 0, 0⟩ ch.rotKeys tT) *
          scale4 (sampleKeys lerpV ⟨1, 1, 1⟩ ch.scaleKeys tT)) ∧
    (∀ (clip : Clip) (ts : ℝ), 0 < clip.duration →
      computeTicks clip ts = fmodFold (ts * clip.ticksPerSecond) clip.duration ∧
      0 ≤ computeTicks clip ts ∧ computeTicks clip ts < clip.duration) ∧
    (∀ {α : Type} (interp : α → α → ℝ → α) (d : α) (keys : List (Key α)) (t : ℝ),
      keysSorted keys →
      (∀ k0 rest, keys = k0 :: rest → t < k0.time →
        sampleKeys interp d keys t = k0.value) ∧
      (∀ kl, keys.getLast? = some kl → kl.time ≤ t →
        sampleKeys interp d keys t = kl.value) ∧
      (∀ i ki ki1, keys[i]? = some ki → keys[i + 1]? = some ki1 →
        ki.time ≤ t → t < ki1.time →
        sampleKeys interp d keys t =
          interp ki.value ki1.value ((t - ki.time) / (ki1.time - ki.time)))) := by
  refine ⟨?_, ?_, ?_, ?_⟩
  · intro clip tT nm st h
    unfold nodeLocal
    rw [h]
  · intro clip tT nm st ch h
    unfold nodeLocal
    rw [h]
  · intro clip ts hdur
    have hne : clip.duration ≠ 0 := ne_of_gt hdur
    have he : computeTicks clip ts = fmodFold (ts * clip.ticksPerSecond) clip.duration := by
      unfold computeTicks
      rw [if_neg hne]
    rcases fmodFold_mem (ts * clip.ticksPerSecond) clip.duration hdur with ⟨h0, h1⟩
    exact ⟨he, by rw [he]; exact h0, by rw [he]; exact h1⟩
  · intro α interp d keys t hs
    refine ⟨?_, ?_, ?_⟩
    · intro k0 rest hk ht
      rw [hk]
      exact sampleKeys_first interp d k0 rest t ht
    · intro kl hkl hle
      exact sampleKeys_last interp d keys t hs kl hkl hle
    · intro i ki ki1 hki hki1 hle hlt
      exact sampleKeys_segment interp d keys i t hs ki ki1 hki hki1 hle hlt

/-- Witness for claim C3: a two-key translation channel sampled inside the
segment, and the static-transform fallback for a clip with no channels. -/
theorem clip_sampling_correct_witness :
    sampleKeys lerpV ⟨0, 0, 0⟩ [⟨0, ⟨0, 0, 0⟩⟩, ⟨10, ⟨2, 0, 0⟩⟩] 4 =
      lerpV ⟨0, 0, 0⟩ ⟨2, 0, 0⟩ ((4 - 0) / (10 - 0)) ∧
    nodeLocal ⟨10, 1, []⟩ 4 "node" 1 = 1 := by
  constructor
  · exact (clip_sampling_correct.2.2.2 lerpV ⟨0, 0, 0⟩
      [⟨0, ⟨0, 0, 0⟩⟩, ⟨10, ⟨2, 0, 0⟩⟩] 4
      (by norm_num [keysSorted])).2.2 0 ⟨0, ⟨0, 0, 0⟩⟩ ⟨10, ⟨2, 0, 0⟩⟩
      rfl rfl (by norm_num) (by norm_num)
  · exact clip_sampling_correct.1 ⟨10, 1, []⟩ 4 "node" 1 rfl

/-- Claim C2: the pose evaluator is a single pre-order traversal of the node
tree such that the global transform of the root is its local transform, the
global of every non-root node is `global(parent) · local(node)`, and the Pose
records, for every node carrying a bone, exactly the entries
`boneMatrix[boneId] = global(node) · offset(boneId)`, in pre-order. -/
theorem pose_evaluator_correct (L : String → Mat4 → Mat4)
    (B : String → Option (ℕ × Mat4)) (t : NodeTree) :
    globalAt L t [] = some (L t.name t.localT) ∧
    (∀ (p : List ℕ) (i : ℕ) (n c : NodeTree),
      nodeAt t p = some n → n.children[i]? = some c →
      globalAt L t (p ++ [i]) = (globalAt L t p).map (· * L c.name c.localT)) ∧
    evalNode L B 1 t = (preorderPaths t).filterMap fun p =>
      match nodeAt t p, globalAt L t p with
      | some nd, some g => (B nd.name).map fun bo => (bo.1, g * bo.2)
      | _, _ => none := by
  refine ⟨rfl, fun p i n c hn hc => globalAt_append L p t i n c hn hc, ?_⟩
  rw [evalNode_eq_poseSpec L B t 1]
  have hfun : poseSpec L B t 1 = fun p =>
      match nodeAt t p, globalAt L t p with
      | some nd, some g => (B nd.name).map fun bo => (bo.1, g * bo.2)
      | _, _ => none := by
    funext p
    unfold poseSpec
    cases nodeAt t p with
    | none => cases globalAt L t p <;> rfl
    | some nd =>
      cases globalAt L t p with
      | none => rfl
      | some g => simp [one_mul]
  rw [hfun]

/-- Witness for claim C2: the parent-child recurrence of `globalAt`
instantiated on a concrete two-node tree with identity transforms. -/
theorem pose_evaluator_correct_witness :
    nodeAt (NodeTree.node "r" (1 : Mat4) [NodeTree.node "c" (1 : Mat4) []]) [] =
      some (NodeTree.node "r" (1 : Mat4) [NodeTree.node "c" (1 : Mat4) []]) ∧
    (NodeTree.node "r" (1 : Mat4) [NodeTree.node "c" (1 : Mat4) []]).children[0]? =
      some (NodeTree.node "c" (1 : Mat4) []) ∧
    globalAt (fun _ m => m) (NodeTree.node "r" (1 : Mat4) [NodeTree.node "c" (1 : Mat4) []])
        [0] =
      (globalAt (fun _ m => m)
        (NodeTree.node "r" (1 : Mat4) [NodeTree.node "c" (1 : Mat4) []]) []).map
        (· * (1 : Mat4)) :=
  ⟨rfl, rfl,
   (pose_evaluator_correct (fun _ m => m) (fun _ => none)
     (NodeTree.node "r" (1 : Mat4) [NodeTree.node "c" (1 : Mat4) []])).2.1
     [] 0 (NodeTree.node "r" (1 : Mat4) [NodeTree.node "c" (1 : Mat4) []])
     (NodeTree.node "c" (1 : Mat4) []) rfl rfl⟩

/-- Claim C5: writing `bones[b].transformation` between `createFrame` and
`getMeshFrame` applies the override — the traversal's local for bone `b`'s
node becomes the written matrix — and it changes the frames only of meshes
whose vertices are influenced by bone `b` or its descendant bones (bones whose
nodes lie in the subtree of `b`'s node): a mesh none of whose vertex weights
reference such a bone gets exactly the un-overridden frame. -/
theorem override_locality (m : SAModel) (b : ℕ) (hb : b < m.bones.length)
    (newT : Mat4) (mesh : Mesh)
    (hw : ∀ v ∈ mesh.vertices, ∀ bw ∈ v.weights,
      bw.1 ∉ affectedIds (fun nm => boneIdOf m.bones nm == some b)
        (boneOfModel m.bones) m.tree) :
    getMeshFrame { m with bones := m.bones.set b ({ m.bones.get ⟨b, hb⟩ with transformation := newT }) } mesh =
      getMeshFrame m mesh ∧
    (∀ (clip : Clip) (tT : ℝ) (nm : String) (st : Mat4),
      boneIdOf m.bones nm = some b →
      localOfModel (m.bones.set b { m.bones.get ⟨b, hb⟩ with transformation := newT })
        clip tT nm st = newT) := by
  constructor
  · have hB : boneOfModel (m.bones.set b
        { m.bones.get ⟨b, hb⟩ with transformation := newT }) = boneOfModel m.bones :=
      boneOfModel_set m.bones b hb newT
    have hLL : ∀ (clip : Clip) (tT : ℝ) (nm : String) (st : Mat4),
        (fun nm => boneIdOf m.bones nm == some b) nm = false →
        localOfModel (m.bones.set b { m.bones.get ⟨b, hb⟩ with transformation := newT })
          clip tT nm st = localOfModel m.bones clip tT nm st := by
      intro clip tT nm st hpred
      apply localOfModel_set_ne
      intro hcontra
      have hpred' : (boneIdOf m.bones nm == some b) = false := hpred
      rw [hcontra] at hpred'
      simp at hpred'
    have key : ∀ (clip : Clip) (tT : ℝ),
        (evalNode (localOfModel (m.bones.set b
            { m.bones.get ⟨b, hb⟩ with transformation := newT }) clip tT)
          (boneOfModel m.bones) 1 m.tree).filter
            (fun e => decide (e.1 ∉ affectedIds (fun nm => boneIdOf m.bones nm == some b)
              (boneOfModel m.bones) m.tree)) =
        (evalNode (localOfModel m.bones clip tT) (boneOfModel m.bones) 1 m.tree).filter
            (fun e => decide (e.1 ∉ affectedIds (fun nm => boneIdOf m.bones nm == some b)
              (boneOfModel m.bones) m.tree)) := by
      intro clip tT
      exact evalNode_filter_eq (localOfModel m.bones clip tT) _ (boneOfModel m.bones)
        (fun nm => boneIdOf m.bones nm == some b) (hLL clip tT) _ m.tree
        (fun x hx => hx) 1
    unfold getMeshFrame
    apply skinMesh_congr
    intro v hv bw hbw
    apply poseLookup_eq_of_filter _ _
      (affectedIds (fun nm => boneIdOf m.bones nm == some b) (boneOfModel m.bones) m.tree)
      bw.1 (hw v hv bw hbw)
    show (currentPose { m with bones := m.bones.set b ({ m.bones.get ⟨b, hb⟩ with transformation := newT }) }).filter _ =
      (currentPose m).filter _
    unfold currentPose
    cases hcur : m.cur with
    | none =>
      show (evalNode (localOfModel (m.bones.set b _) ⟨0, 0, []⟩ 0)
          (boneOfModel (m.bones.set b _)) 1 m.tree).filter _ = _
      rw [hB]
      exact key ⟨0, 0, []⟩ 0
    | some pr =>
      show (evalNode (localOfModel (m.bones.set b _) pr.1 pr.2)
          (boneOfModel (m.bones.set b _)) 1 m.tree).filter _ = _
      rw [hB]
      exact key pr.1 pr.2
  · intro clip tT nm st hid
    exact localOfModel_set_self m.bones b hb newT clip tT nm st hid

/-- Witness for claim C5: in the concrete model `model5W`, overriding bone 0
(the head) leaves the frame of the mesh that is weighted only to bone 1 (the
arm) unchanged, and the traversal local at the head's node becomes the written
matrix. -/
theorem override_locality_witness :
    (∀ v ∈ mesh5W.vertices, ∀ bw ∈ v.weights,
      bw.1 ∉ affectedIds (fun nm => boneIdOf model5W.bones nm == some 0)
        (boneOfModel model5W.bones) model5W.tree) ∧
    (getMeshFrame { model5W with bones := model5W.bones.set 0 ({ model5W.bones.get ⟨0, by decide⟩ with transformation := newTW }) } mesh5W =
      getMeshFrame model5W mesh5W ∧
    (∀ (clip : Clip) (tT : ℝ) (nm : String) (st : Mat4),
      boneIdOf model5W.bones nm = some 0 →
      localOfModel (model5W.bones.set 0
        { model5W.bones.get ⟨0, by decide⟩ with transformation := newTW })
        clip tT nm st = newTW)) :=
  ⟨by decide, override_locality model5W 0 (by decide) newTW mesh5W (by decide)⟩

/-- Claim C9: for a model whose bone parent links form a forest (witnessed by
a rank function `d` increasing from parent to child), `printBoneHierarchy`
prints each bone exactly once in pre-order — the children recorded for each
parent are exactly its child bones in increasing id order, the root loop runs
over root bones in increasing id order, every printed line is the line of a
(boneId, level) visit whose level is the bone's depth, and ancestors are
printed before their descendants — with each line consisting of two spaces per
depth level, the bone id, a space, and the bone name. -/
theorem printBoneHierarchy_correct (m : HModel) (d : ℕ → ℕ)
    (hd : ∀ c p, parentOf m.bones c = some p → p < m.bones.length ∧ d p < d c) :
    (∀ p, (boneChildrenIds m.bones).getD p [] =
      (List.range m.bones.length).filter fun c => parentOf m.bones c == some p) ∧
    (∀ p, ((boneChildrenIds m.bones).getD p []).Pairwise (· < ·)) ∧
    (rootBoneIds m.bones).Pairwise (· < ·) ∧
    printBoneHierarchy m =
      ((visitPairs m).map fun e => boneLine (boneId2BoneName m) e.1 e.2) ∧
    (∀ e ∈ visitPairs m, DepthIs m.bones e.1 e.2) ∧
    (∀ c, c < m.bones.length → ((visitPairs m).map Prod.fst).count c = 1) ∧
    (∀ a c, AncOf m.bones a c → a ≠ c → c < m.bones.length →
      [a, c].Sublist ((visitPairs m).map Prod.fst)) := by
  have hch := children_char m.bones d hd
  refine ⟨hch, ?_, ?_, printBoneHierarchy_eq_map m, ?_, ?_, ?_⟩
  · intro p
    rw [hch p]
    exact (List.pairwise_lt_range _).filter _
  · unfold rootBoneIds
    exact (List.pairwise_lt_range _).filter _
  · intro e he
    unfold visitPairs at he
    rcases List.mem_bind.mp he with ⟨r, hr, hev⟩
    rcases (mem_rootBoneIds m.bones r).1 hr with ⟨hrn, hrp⟩
    exact visit_depth m.bones (boneChildrenIds m.bones)
      (fun b c hc => ((mem_children_iff m.bones _ hch b c).1 hc).2)
      m.bones.length r 0 (DepthIs.root r hrp) e hev
  · intro c hc
    unfold visitPairs
    rw [List.map_bind, count_bind_nat]
    obtain ⟨r0, hr0n, hr0p, hr0a⟩ :=
      exists_root_aux m.bones d hd (d c) c (le_refl _) hc
    have hr0mem : r0 ∈ rootBoneIds m.bones :=
      (mem_rootBoneIds m.bones r0).2 ⟨hr0n, hr0p⟩
    have hndroots : (rootBoneIds m.bones).Nodup := by
      unfold rootBoneIds
      exact (List.nodup_range _).filter _
    apply map_sum_one _ _ hndroots r0 hr0mem
    · exact (visit_count m.bones d hd _ hch m.bones.length ∅ r0 0 hr0n
        (Finset.not_mem_empty _) (by simp) (by simp) c).1 hr0a
    · intro r hr hrne
      rcases (mem_rootBoneIds m.bones r).1 hr with ⟨hrn, hrp⟩
      apply (visit_count m.bones d hd _ hch m.bones.length ∅ r 0 hrn
        (Finset.not_mem_empty _) (by simp) (by simp) c).2
      intro hra
      exact hrne (root_unique m.bones hrp hr0p hra hr0a)
  · intro a c hac hne _
    have han : a < m.bones.length := by
      rcases hac.cases_head with heq | ⟨x, hx, _⟩
      · exact absurd heq hne
      · exact (hd x a hx).1
    obtain ⟨r0, hr0n, hr0p, hr0a⟩ :=
      exists_root_aux m.bones d hd (d a) a (le_refl _) han
    have hr0mem : r0 ∈ rootBoneIds m.bones :=
      (mem_rootBoneIds m.bones r0).2 ⟨hr0n, hr0p⟩
    have hsub := visit_sublist m.bones d hd _ hch m.bones.length ∅ r0 0 hr0n
      (Finset.not_mem_empty _) (by simp) (by simp) a c hr0a hac hne
    unfold visitPairs
    rw [List.map_bind]
    exact bind_sublist _ _ r0 hr0mem _ hsub

/-- Witness for claim C9: the five-bone forest pelvis → (spine → head, legL,
legR): the identity rank function certifies the forest shape, the head bone
(id 2) is printed exactly once, and the output lines are the visit pairs'
lines. -/
theorem printBoneHierarchy_correct_witness :
    (∀ c p, parentOf bones9W c = some p → p < bones9W.length ∧ p < c) ∧
    ((visitPairs m9W).map Prod.fst).count 2 = 1 ∧
    printBoneHierarchy m9W =
      ((visitPairs m9W).map fun e => boneLine (boneId2BoneName m9W) e.1 e.2) := by
  have hd9 : ∀ c p, parentOf bones9W c = some p → p < bones9W.length ∧ p < c := by
    intro c p h
    have hc : c < bones9W.length := parentOf_lt bones9W c p h
    have hc5 : c < 5 := by simpa [bones9W] using hc
    interval_cases c
    · rw [show parentOf bones9W 0 = none by decide] at h
      exact absurd h (by simp)
    · rw [show parentOf bones9W 1 = some 0 by decide] at h
      have hp : p = 0 := (Option.some.inj h).symm
      subst hp
      exact ⟨by decide, by decide⟩
    · rw [show parentOf bones9W 2 = some 1 by decide] at h
      have hp : p = 1 := (Option.some.inj h).symm
      subst hp
      exact ⟨by decide, by decide⟩
    · rw [show parentOf bones9W 3 = some 0 by decide] at h
      have hp : p = 0 := (Option.some.inj h).symm
      subst hp
      exact ⟨by decide, by decide⟩
    · rw [show parentOf bones9W 4 = some 0 by decide] at h
      have hp : p = 0 := (Option.some.inj h).symm
      subst hp
      exact ⟨by decide, by decide⟩
  refine ⟨hd9, ?_, ?_⟩
  · exact (printBoneHierarchy_correct m9W (fun x => x) hd9).2.2.2.2.2.1 2 (by decide)
  · exact (printBoneHierarchy_correct m9W (fun x => x) hd9).2.2.2.1

/-- Claim C10: `SFMLMaterial::bindTexture` ignores its `textureType` argument
and always binds the `textureId`-th diffuse texture; the access is in bounds
iff `textureId` is below the number of diffuse textures loaded at
construction, which equals the asset material's diffuse-texture count; and
`texture()` is true exactly when that count is positive. -/
theorem sfml_material_bindTexture_spec (material : AiMaterial)
    (tA tB : AiTextureType) (i : ℕ) :
    (SFMLMaterial.ofAiMaterial material).bindTexture tA i =
      (SFMLMaterial.ofAiMaterial material).bindTexture tB i ∧
    (SFMLMaterial.ofAiMaterial material).bindTexture tA i =
      (SFMLMaterial.ofAiMaterial material).diffuseTextures[i]? ∧
    (SFMLMaterial.ofAiMaterial material).diffuseTextures.length =
      (material.textures .diffuse).length ∧
    (((SFMLMaterial.ofAiMaterial material).bindTexture tA i).isSome ↔
      i < (material.textures .diffuse).length) ∧
    ((SFMLMaterial.ofAiMaterial material).texture = true ↔
      0 < (material.textures .diffuse).length) := by
  refine ⟨rfl, rfl, by simp [SFMLMaterial.ofAiMaterial], ?_, ?_⟩
  · rw [SFMLMaterial.bindTexture]
    constructor
    · intro h
      rcases Option.isSome_iff_exists.mp h with ⟨a, ha⟩
      have := (List.getElem?_eq_some.mp ha).1
      simpa [SFMLMaterial.ofAiMaterial] using this
    · intro h
      rw [List.getElem?_eq_getElem (by simpa [SFMLMaterial.ofAiMaterial] using h)]
      rfl
  · simp [SFMLMaterial.texture, SFMLMaterial.ofAiMaterial]

end SkelAnim
